import Mathlib

/-!
Verification of the timetable-scheduling core of the S-suit repository
(`Backend/app/algorithms_2/`): the constraint evaluator (`evaluate.py`),
the quality indicators (`metrics.py`), the NSGA-II operators
(`Nsga_II_optimized.py`), the MOEA/D ideal-point update
(`moead_optimized.py`) and the SPEA2 fitness/selection machinery
(`spea2.py`), shallowly embedded in Lean.

Python `dict`s are modelled as association lists that keep insertion
order; `dict` assignment replaces an existing key in place or appends a
fresh key at the end, exactly as CPython does.  Python floats are
modelled as rationals (reals where a square root is taken), `float('inf')`
as the top element of `WithTop`, and `random.*` draws as explicit
parameters, so that one Lean run corresponds to one concrete resolution
of the randomness.
-/

namespace S2P

/-! ## Dict and list helpers (CPython dict semantics) -/

/-- Membership of a key in an association list (Python `k in d`). -/
def dictMem (d : List (String × α)) (k : String) : Bool :=
  d.any (fun e => e.1 == k)

/-- Lookup (Python `d[k]`, as an `Option` so a missing key is visible). -/
def dictGet (d : List (String × α)) (k : String) : Option α :=
  (d.find? (fun e => e.1 == k)).map (fun e => e.2)

/-- Assignment `d[k] = v`: replace in place if the key exists, else append. -/
def dictSet (d : List (String × α)) (k : String) (v : α) : List (String × α) :=
  if dictMem d k then d.map (fun e => if e.1 == k then (k, v) else e)
  else d ++ [(k, v)]

/-- Keys of a dict, in insertion order. -/
def dictKeys (d : List (String × α)) : List String := d.map (fun e => e.1)

/-- Values of a dict, in insertion order. -/
def dictVals (d : List (String × α)) : List α := d.map (fun e => e.2)

/-- Python `set.add` on a list-modelled set: append only when absent. -/
def setAdd (s : List String) (k : String) : List String :=
  if k ∈ s then s else s ++ [k]

/-- Stable insertion of one element into a sorted list: the new element
goes after every element `y` with `le y x`, which matches the placement
CPython's stable `sorted` gives elements arriving later. -/
def sortedInsert (le : α → α → Bool) (x : α) : List α → List α
  | [] => [x]
  | y :: ys => if le y x then y :: sortedInsert le x ys else x :: y :: ys

/-- Stable sort (model of Python `sorted` / `list.sort`), processing
elements left to right. -/
def pySorted (le : α → α → Bool) (l : List α) : List α :=
  l.foldl (fun acc x => sortedInsert le x acc) []

/-! ## Domain model (`Data_Loading.py`) -/

/-- The `Activity` reference datum (`Data_Loading.Activity`): note the
loader stores a single teacher id (`teacher_ids[0]`). -/
structure Activity where
  id : String
  subject : String
  teacher_id : String
  group_ids : List String
  duration : ℕ
deriving DecidableEq, Repr

/-- A student group (`Data_Loading.Group`). -/
structure Group where
  id : String
  size : ℕ
deriving DecidableEq, Repr

/-- A room (`Data_Loading.Space`). -/
structure Space where
  code : String
  size : ℕ
deriving DecidableEq, Repr

/-- The module-level reference data of `Data_Loading.py`
(`slots`, `spaces_dict`, `groups_dict`, `activities_dict`,
`lecturers_dict`), passed explicitly instead of read from globals. -/
structure Env where
  slots : List String
  spaces : List (String × Space)
  groups : List (String × Group)
  activities : List (String × Activity)
  lecturers : List String
deriving Repr

/-! ## Timetable representations

`evaluate.py` accepts timetables whose cells may hold anything; its
`_check_activity_validity` accepts exactly `Activity` instances.  A cell
is therefore one of: a valid `Activity`, Python `None`, or some other
object (for instance a bare activity-id string left dangling). -/

/-- A timetable cell as seen by the evaluator. -/
inductive PyCell where
  | empty : PyCell
  | act : Activity → PyCell
  | invalid : String → PyCell
deriving DecidableEq, Repr

/-- An evaluator-facing timetable: `slot -> room -> cell`. -/
abbrev EvalTT := List (String × List (String × PyCell))

/-- Model of `_check_activity_validity`: `isinstance(activity, Activity)`. -/
def check_activity_validity : PyCell → Bool
  | PyCell.act _ => true
  | _ => false

/-! ## Hard constraints (`evaluate.py`) -/

/-- Per-slot mutable state of `_process_time_slot`. -/
structure SlotAcc where
  profSet : List String
  subGroupSet : List String
  vacant : ℕ
  profConf : ℕ
  roomSizeConf : ℕ
  subGroupConf : ℕ
deriving Repr

/-- Initial per-slot state. -/
def SlotAcc.init : SlotAcc := ⟨[], [], 0, 0, 0, 0⟩

/-- Model of `_check_room_capacity`: sums the sizes of the activity's
groups that exist in `groups_dict`, adding each such group id to the
slot's group set, then compares with `spaces_dict[room].size` — a lookup
that raises `KeyError` when the room is unknown. -/
def check_room_capacity (env : Env) (a : Activity) (room : String)
    (subGroupSet : List String) : Except String (ℕ × List String) :=
  let grown := a.group_ids.foldl
    (fun (st : ℕ × List String) gid =>
      match dictGet env.groups gid with
      | some g => (st.1 + g.size, setAdd st.2 gid)
      | none => st)
    (0, subGroupSet)
  match dictGet env.spaces room with
  | none => Except.error ("KeyError: " ++ room)
  | some sp => Except.ok ((if grown.1 > sp.size then 1 else 0), grown.2)

/-- Model of `_process_activity` for one cell: an invalid or empty cell
counts as a vacant room; a valid activity updates the slot's teacher and
group sets and the global set of seen activity ids. -/
def process_activity (env : Env) (cell : PyCell) (room : String)
    (acc : SlotAcc) (actsSeen : List String) :
    Except String (SlotAcc × List String) :=
  match cell with
  | PyCell.act a => do
      let actsSeen := setAdd actsSeen a.id
      let profC := if a.teacher_id ∈ acc.profSet then 1 else 0
      let profSet := setAdd acc.profSet a.teacher_id
      let subC := (a.group_ids.dedup.filter (fun g => g ∈ acc.subGroupSet)).length
      let cap ← check_room_capacity env a room acc.subGroupSet
      Except.ok ({ acc with
                    profSet := profSet
                    subGroupSet := cap.2
                    profConf := acc.profConf + profC
                    roomSizeConf := acc.roomSizeConf + cap.1
                    subGroupConf := acc.subGroupConf + subC }, actsSeen)
  | _ => Except.ok ({ acc with vacant := acc.vacant + 1 }, actsSeen)

/-- Model of `_process_time_slot`: scan the rooms of one slot in dict
order, threading the per-slot state and the global seen-activity set. -/
def process_time_slot (env : Env) (slotData : List (String × PyCell))
    (actsSeen : List String) : Except String (SlotAcc × List String) :=
  slotData.foldlM
    (fun (st : SlotAcc × List String) e => process_activity env e.2 e.1 st.1 st.2)
    (SlotAcc.init, actsSeen)

/-- Model of `evaluate_hard_constraints`: returns
`(vacant, profConflicts, subGroupConflicts, roomSizeConflicts, unassigned)`
in the source's tuple order, where `unassigned` is
`len(activities_dict) - len(activities_set)` (an `Int`, since a timetable
holding ids outside `activities_dict` drives it negative in Python too). -/
def evaluate_hard_constraints (env : Env) (t : EvalTT) :
    Except String (ℕ × ℕ × ℕ × ℕ × ℤ) := do
  let r ← t.foldlM
    (fun (st : (ℕ × ℕ × ℕ × ℕ) × List String) slotEntry => do
      let slotRes ← process_time_slot env slotEntry.2 st.2
      let acc := slotRes.1
      Except.ok ((st.1.1 + acc.vacant, st.1.2.1 + acc.profConf,
                  st.1.2.2.1 + acc.roomSizeConf, st.1.2.2.2 + acc.subGroupConf),
                 slotRes.2))
    ((0, 0, 0, 0), [])
  let counts := r.1
  let unassigned : ℤ := (env.activities.length : ℤ) - (r.2.length : ℤ)
  Except.ok (counts.1, counts.2.1, counts.2.2.2, counts.2.2.1, unassigned)

/-- Replace a non-`Activity`, non-`None` cell value by `None`: the claim
that the evaluator fails fast on such cells is compared against the fact
that the evaluator cannot distinguish a timetable from its cleaned-up
image under this map. -/
def erase_invalid_cell : PyCell → PyCell
  | PyCell.invalid _ => PyCell.empty
  | c => c

/-- `erase_invalid_cell` applied to every cell of a timetable. -/
def erase_invalid (t : EvalTT) : EvalTT :=
  t.map (fun e => (e.1, e.2.map (fun c => (c.1, erase_invalid_cell c.2))))

/-! ## Soft constraints (`evaluate.py`) -/

/-- Append one slot to an entity's slot list (`d.setdefault(k, []) + [s]`
shape used by `_update_group_lecture_slots` / `_update_lecturer_data`). -/
def dictAppendSlot (d : List (String × List String)) (k s : String) :
    List (String × List String) :=
  dictSet d k (((dictGet d k).getD []) ++ [s])

/-- Model of `_process_lecture_slot_data`: walk the schedule in dict
order, skipping invalid cells, and collect per-group slot lists,
per-lecturer slot lists and per-lecturer workload (duration sums). -/
def process_lecture_slot_data (t : EvalTT) :
    List (String × List String) × List (String × List String) × List (String × ℕ) :=
  t.foldl
    (fun st slotEntry =>
      slotEntry.2.foldl
        (fun st cellEntry =>
          match cellEntry.2 with
          | PyCell.act a =>
              let gls := a.group_ids.foldl (fun d gid => dictAppendSlot d gid slotEntry.1) st.1
              let lls := dictAppendSlot st.2.1 a.teacher_id slotEntry.1
              let lw := dictSet st.2.2 a.teacher_id
                (((dictGet st.2.2 a.teacher_id).getD 0) + a.duration)
              (gls, lls, lw)
          | _ => st)
        st)
    ([], [], [])

/-- Model of `_calculate_idle_time`: sum of gaps between consecutive
sorted slot indices, normalized by `len(slots) - 1`.  `slots.index` is
modelled by `List.indexOf` (the schedules built by this system only ever
record slots drawn from the global slot list). -/
def calculate_idle_time (lectureSlots : List String) (slots : List String) : ℚ :=
  if lectureSlots = [] then 0
  else
    let idx := pySorted (fun a b => a ≤ b) (lectureSlots.map (fun s => slots.indexOf s))
    let idle : ℤ := (idx.zip idx.tail).foldl
      (fun acc p => acc + ((p.2 : ℤ) - (p.1 : ℤ) - 1)) 0
    if slots.length > 1 then (idle : ℚ) / ((slots.length : ℚ) - 1) else 0

/-- Model of `_compute_metrics`: fatigue, idle time and spread per entity,
initialized to `0` for every entity of the dict and overwritten from the
collected lecture-slot lists. -/
def compute_metrics (entityKeys : List String)
    (lectureSlotsDict : List (String × List String)) (slots : List String) :
    List (String × ℚ) × List (String × ℚ) × List (String × ℚ) :=
  let init : List (String × ℚ) := entityKeys.map (fun k => (k, 0))
  lectureSlotsDict.foldl
    (fun st e =>
      if entityKeys.contains e.1 then
        (dictSet st.1 e.1 (e.2.length : ℚ),
         dictSet st.2.1 e.1 (calculate_idle_time e.2 slots),
         dictSet st.2.2 e.1 ((e.2.length : ℚ) * 2))
      else st)
    (init, init, init)

/-- Python `max(values, default=1)`. -/
def pyMaxD1 (l : List ℚ) : ℚ :=
  match l with
  | [] => 1
  | v :: rest => rest.foldl max v

/-- Model of `_normalize_dict`: divide by the max value, or map all to 0
when the max is 0. -/
def normalize_dict (d : List (String × ℚ)) : List (String × ℚ) :=
  let m := pyMaxD1 (dictVals d)
  d.map (fun e => (e.1, if m ≠ 0 then e.2 / m else 0))

/-- Mean of a list of rationals.  Python's `np.mean([])` is NaN; this
model returns `0` there (Lean's `x / 0 = 0`), which no theorem below
relies on. -/
def listMean (l : List ℚ) : ℚ := l.sum / (l.length : ℚ)

/-- Population variance, as `np.var` computes it. -/
def listVar (l : List ℚ) : ℚ :=
  let m := listMean l
  listMean (l.map (fun v => (v - m) ^ 2))

/-- Model of `_calculate_workload_balance`. -/
def calculate_workload_balance (vals : List ℚ) : ℚ :=
  if vals.length ≤ 1 then 1
  else if listMean vals = 0 then 1
  else max 0 (1 - listVar vals / listMean vals)

/-- Model of `_calculate_weighted_score`. -/
def calculate_weighted_score (sf si ss lf li ls wb : ℚ) : ℚ :=
  sf * (2/10) + (1 - si) * (2/10) + (1 - ss) * (2/10) +
  (1 - lf) * (1/10) + (1 - li) * (1/10) + (1 - ls) * (1/10) + wb * (1/10)

/-- Model of `evaluate_soft_constraints` (the final score only): collect
slot data, compute and normalize the six metrics, add workload balance,
and take the weighted sum. -/
def evaluate_soft_constraints (env : Env) (t : EvalTT) : ℚ :=
  let data := process_lecture_slot_data t
  let gm := compute_metrics (dictKeys env.groups) data.1 env.slots
  let lm := compute_metrics env.lecturers data.2.1 env.slots
  let gFat := normalize_dict gm.1
  let gIdle := normalize_dict gm.2.1
  let gSpread := normalize_dict gm.2.2
  let lFat := normalize_dict lm.1
  let lIdle := normalize_dict lm.2.1
  let lSpread := normalize_dict lm.2.2
  let wb := calculate_workload_balance ((dictVals data.2.2).map (fun n => (n : ℚ)))
  calculate_weighted_score
    (listMean (dictVals gFat)) (listMean (dictVals gIdle)) (listMean (dictVals gSpread))
    (listMean (dictVals lFat)) (listMean (dictVals lIdle)) (listMean (dictVals lSpread))
    wb

/-! ## NSGA-II genome, evaluator and driver tail (`Nsga_II_optimized.py`) -/

/-- The NSGA-II genome: `slot -> room -> Activity | None`, as built by
`generate_initial_population` and mutated in place by the operators. -/
abbrev TT := List (String × List (String × Option Activity))

/-- View of a genome cell through the evaluator's dynamic typing. -/
def liftCell : Option Activity → PyCell
  | some a => PyCell.act a
  | none => PyCell.empty

/-- View of a genome as the evaluator-facing timetable (in Python this is
the same object, read with `isinstance` checks). -/
def liftTT (t : TT) : EvalTT :=
  t.map (fun e => (e.1, e.2.map (fun c => (c.1, liftCell c.2))))

/-- Model of `evaluator`: weighted hard score and inverted soft score. -/
def evaluator (env : Env) (t : TT) : Except String (ℤ × ℚ) := do
  let hv ← evaluate_hard_constraints env (liftTT t)
  let weighted : ℤ := (hv.1 : ℤ) * 1 + (hv.2.1 : ℤ) * 100 + (hv.2.2.1 : ℤ) * 100 +
    (hv.2.2.2.1 : ℤ) * 50 + hv.2.2.2.2 * 200
  Except.ok (weighted, 1 - evaluate_soft_constraints env (liftTT t))

/-- Sum of the five counts of `evaluate_hard_constraints`
(`sum(hard_violations)` in `find_best_solution`). -/
def violationSum (v : ℕ × ℕ × ℕ × ℕ × ℤ) : ℤ :=
  (v.1 : ℤ) + (v.2.1 : ℤ) + (v.2.2.1 : ℤ) + (v.2.2.2.1 : ℤ) + v.2.2.2.2

/-- Model of `find_best_solution` (NSGA-II): keep the first individual
whose total violation count is strictly below the running minimum; the
soft score is never consulted. -/
def find_best_solution (env : Env) (population : List TT) :
    Except String (Option TT) := do
  let r ← population.foldlM
    (fun (st : Option TT × WithTop ℤ) sol => do
      let hv ← evaluate_hard_constraints env (liftTT sol)
      let v := violationSum hv
      if (v : WithTop ℤ) < st.2 then Except.ok (some sol, (v : WithTop ℤ))
      else Except.ok st)
    ((none : Option TT), (⊤ : WithTop ℤ))
  Except.ok r.1

/-! ## Quality indicators (`metrics.py`), for 2-objective fronts

The system runs with `NUM_OBJECTIVES = 2` and a 2-entry reference point,
so fronts are modelled as lists of rational pairs; the Monte-Carlo branch
of `calculate_hypervolume` is only reachable for 3+-dimensional points
and is outside this model. -/

/-- Minimum of a nonempty list's first components (with the head as seed). -/
def minFst (p : ℚ × ℚ) (rest : List (ℚ × ℚ)) : ℚ :=
  rest.foldl (fun m q => min m q.1) p.1

/-- Minimum of a nonempty list's second components. -/
def minSnd (p : ℚ × ℚ) (rest : List (ℚ × ℚ)) : ℚ :=
  rest.foldl (fun m q => min m q.2) p.2

/-- Maximum of a nonempty list's first components. -/
def maxFst (p : ℚ × ℚ) (rest : List (ℚ × ℚ)) : ℚ :=
  rest.foldl (fun m q => max m q.1) p.1

/-- Maximum of a nonempty list's second components. -/
def maxSnd (p : ℚ × ℚ) (rest : List (ℚ × ℚ)) : ℚ :=
  rest.foldl (fun m q => max m q.2) p.2

/-- Model of `_calculate_simple_hypervolume`: the product over dimensions
of `reference_point[i] - min(points[:, i])`. -/
def calculate_simple_hypervolume (p : ℚ × ℚ) (rest : List (ℚ × ℚ)) (ref : ℚ × ℚ) : ℚ :=
  (ref.1 - minFst p rest) * (ref.2 - minSnd p rest)

/-- Model of `_calculate_2d_hypervolume`: sort by the first objective and
sum the rectangles with positive width and height.  (For `i > 0` the code
takes `sorted[i-1].x - sorted[i].x`, which is non-positive on an
ascending sort; that is what the source computes.) -/
def calculate_2d_hypervolume (points : List (ℚ × ℚ)) (ref : ℚ × ℚ) : ℚ :=
  let sortedPts := pySorted (fun a b => a.1 ≤ b.1) points
  sortedPts.enum.foldl
    (fun acc ip =>
      let width := if ip.1 = 0 then ref.1 - ip.2.1
                   else (sortedPts.getD (ip.1 - 1) ip.2).1 - ip.2.1
      let height := ref.2 - ip.2.2
      if width > 0 ∧ height > 0 then acc + width * height else acc)
    0

/-- Model of `calculate_hypervolume` on 2-objective fronts: `0.0` on an
empty front; otherwise dimensions whose spread is `> 1e-10` are counted,
and with fewer than two of them the simple product is returned, else the
2-D rectangle sum. -/
def calculate_hypervolume (front : List (ℚ × ℚ)) (ref : ℚ × ℚ) : ℚ :=
  match front with
  | [] => 0
  | p :: rest =>
      let eps : ℚ := 1 / 10 ^ 10
      let active1 := maxFst p rest - minFst p rest > eps
      let active2 := maxSnd p rest - minSnd p rest > eps
      if (if active1 then 1 else 0) + (if active2 then 1 else 0) < 2 then
        calculate_simple_hypervolume p rest ref
      else calculate_2d_hypervolume (p :: rest) ref

/-- Euclidean distance between two 2-objective points (`np.sqrt` of the
sum of squared differences). -/
noncomputable def distR (p q : ℚ × ℚ) : ℝ :=
  Real.sqrt (((p.1 - q.1) ^ 2 + (p.2 - q.2) ^ 2 : ℚ) : ℝ)

/-- Model of `calculate_spacing`: `0.0` for fewer than two points, else
the standard deviation of each point's nearest-neighbour distance
(indices, not values, distinguish points, as in the Python loops). -/
noncomputable def calculate_spacing (front : List (ℚ × ℚ)) : ℝ :=
  if front.length < 2 then 0
  else
    let distances := front.enum.filterMap
      (fun ip =>
        match (front.enum.filter (fun jq => jq.1 ≠ ip.1)).map
            (fun jq => distR ip.2 jq.2) with
        | [] => none
        | d :: ds => some (ds.foldl min d))
    if distances = [] then 0
    else
      let m := distances.sum / (distances.length : ℝ)
      Real.sqrt ((distances.map (fun d => (d - m) ^ 2)).sum / (distances.length : ℝ))

/-- Model of `calculate_igd`: `float('inf')` when either front is empty,
else the mean over the reference front of the distance to the nearest
point of the front. -/
noncomputable def calculate_igd (front referenceFront : List (ℚ × ℚ)) :
    WithTop ℝ :=
  if front = [] ∨ referenceFront = [] then ⊤
  else
    let sumDist := referenceFront.foldl
      (fun acc rp =>
        match front.map (fun p => distR rp p) with
        | [] => acc
        | d :: ds => acc + ds.foldl min d)
      0
    ((sumDist / (referenceFront.length : ℝ) : ℝ) : WithTop ℝ)

/-! ## MOEA/D ideal point (`moead_optimized.py`) -/

namespace Moead

/-- One step of `update_ideal_point`: lower every component of the ideal
point to `min(new_ideal[i], val)` for each value of one fitness vector.
(Components of the ideal beyond the vector's length are untouched; in
Python a vector longer than the ideal would raise, so theorems carry the
matching length hypothesis.) -/
def update_ideal_point_one [LinearOrder α] (z f : List α) : List α :=
  z.zipWith min f ++ z.drop f.length

/-- Model of `update_ideal_point`: fold the one-vector update over the
list of `(fitness, violations)` evaluations (`fitness[0]` holds the
objective values). -/
def update_ideal_point [LinearOrder α] (evals : List (List α × β))
    (z : List α) : List α :=
  evals.foldl (fun z fe => update_ideal_point_one z fe.1) z

end Moead

/-! ## SPEA2 fitness evaluation (`spea2.py`) -/

namespace Spea2

/-- Model of `evaluate_individual` exactly as reached from
`evaluate_population_fitness` and `run_spea2_optimizer`: no
`evaluator_instance` is ever passed, so the `else` branch runs and the
fitness is `(random.randint(0, 100), random.uniform(0, 1))` — two global
RNG draws, here made explicit parameters — regardless of `individual`. -/
def evaluate_individual (randint : ℕ) (uniform : ℚ) (individual : TT) : ℚ × ℚ :=
  ((randint : ℚ), uniform)

/-- Model of `evaluate_population_fitness` (the fitness list it returns):
one `evaluate_individual` call per individual, consuming the RNG draw
stream in order. -/
def evaluate_population_fitness (draws : ℕ → ℕ × ℚ) (population : List TT) :
    List (ℚ × ℚ) :=
  population.enum.map (fun ip => evaluate_individual (draws ip.1).1 (draws ip.1).2 ip.2)

/-- Model of the second, runtime-visible `dominates` of `spea2.py`, on
plain `(hard, soft)` fitness pairs: the soft score is negated because it
is maximized. -/
def dominates (f1 f2 : ℚ × ℚ) : Bool :=
  decide ((f1.1 < f2.1 ∧ -f1.2 ≤ -f2.2) ∨ (f1.1 ≤ f2.1 ∧ -f1.2 < -f2.2))

/-- Model of `calculate_dominance_strength`: `strength[i]` counts the
individuals `i` dominates. -/
def calculate_dominance_strength (fv : List (ℚ × ℚ)) : List ℕ :=
  fv.enum.map (fun if1 =>
    (fv.enum.filter (fun jf2 => if1.1 ≠ jf2.1 ∧ dominates if1.2 jf2.2)).length)

/-- Model of `calculate_raw_fitness`: `raw_fitness[i]` sums the strengths
of every individual dominating `i`. -/
def calculate_raw_fitness (fv : List (ℚ × ℚ)) (strength : List ℕ) : List ℕ :=
  fv.enum.map (fun if1 =>
    ((fv.enum.filter (fun jf2 => if1.1 ≠ jf2.1 ∧ dominates jf2.2 if1.2)).map
      (fun jf2 => strength.getD jf2.1 0)).sum)

/-- Euclidean distance between two fitness pairs (`np.linalg.norm` on
the raw `[hard, soft]` arrays, no negation or normalization here). -/
noncomputable def fitdist (f1 f2 : ℚ × ℚ) : ℝ :=
  Real.sqrt ((((f1.1 - f2.1) ^ 2 + (f1.2 - f2.2) ^ 2 : ℚ)) : ℝ)

/-- Model of the runtime-visible `calculate_density`: `k` is
`max(1, min(int(sqrt(n)), n-1))` and the density of `i` is
`1 / (d_k + 2)` where `d_k` is the `k`-th smallest distance from `i` to
another individual (for `n = 1` the Python code raises an IndexError;
theorems therefore assume `2 ≤ n`). -/
noncomputable def calculate_density (fv : List (ℚ × ℚ)) : List ℝ :=
  if fv = [] then []
  else
    let k := max 1 (min (Nat.sqrt fv.length) (fv.length - 1))
    fv.enum.map (fun if1 =>
      let distances := (fv.enum.filter (fun jf2 => jf2.1 ≠ if1.1)).map
        (fun jf2 => fitdist if1.2 jf2.2)
      let sortedD := pySorted (fun a b => decide (a ≤ b)) distances
      1 / (sortedD.getD (k - 1) 0 + 2))

/-- Final SPEA2 fitness: raw fitness plus density, per individual. -/
noncomputable def final_fitness (fv : List (ℚ × ℚ)) : List ℝ :=
  List.zipWith (fun (r : ℕ) (d : ℝ) => (r : ℝ) + d)
    (calculate_raw_fitness fv (calculate_dominance_strength fv))
    (calculate_density fv)

/-- The `(individual, fitness, final_fitness)` triples of
`environmental_selection`, stably sorted ascending by final fitness. -/
noncomputable def combined_sorted (population : List γ) (fv : List (ℚ × ℚ)) :
    List (γ × (ℚ × ℚ) × ℝ) :=
  pySorted (fun a b => decide (a.2.2 ≤ b.2.2))
    (List.zipWith (fun (pf : γ × (ℚ × ℚ)) f => (pf.1, pf.2, f))
      (population.zip fv) (final_fitness fv))

/-- Model of the runtime-visible `environmental_selection` of `spea2.py`:
first admit the triples with final fitness exactly `0`; if fewer than
`archive_size`, append the positive-final-fitness triples in sorted
order up to capacity; if more, re-sort the admitted ones by recomputed
density (descending) and truncate. -/
noncomputable def environmental_selection (population : List γ)
    (fv : List (ℚ × ℚ)) (archive_size : ℕ) : List γ × List (ℚ × ℚ) :=
  let sortedC := combined_sorted population fv
  let archive0 := sortedC.filter (fun c => decide (c.2.2 = 0))
  if archive0.length < archive_size then
    let archive := archive0 ++
      (sortedC.filter (fun c => decide (0 < c.2.2))).take (archive_size - archive0.length)
    (archive.map (fun c => c.1), archive.map (fun c => c.2.1))
  else if archive0.length > archive_size then
    let nonDomDens := calculate_density (archive0.map (fun c => c.2.1))
    let pairs := List.zipWith (fun (c : γ × (ℚ × ℚ) × ℝ) d => (c.1, c.2.1, d))
      archive0 nonDomDens
    let sortedP := pySorted (fun a b => decide (b.2.2 ≤ a.2.2)) pairs
    ((sortedP.take archive_size).map (fun c => c.1),
     (sortedP.take archive_size).map (fun c => c.2.1))
  else (archive0.map (fun c => c.1), archive0.map (fun c => c.2.1))

end Spea2

/-! ## NSGA-II crowding distance (`Nsga_II_optimized.py`) -/

namespace NsgaII

/-- Indexing `fitness_values[i][obj]` (both indices are in range in every
in-contract call; the defaults make the model total). -/
def fvAt (fv : List (List ℚ)) (i obj : ℕ) : ℚ := (fv.getD i []).getD obj 0

/-- One objective's pass of `calculate_crowding_distance`'s loop body:
stable-sort the front by the objective, set positions `0` and `n-1` OF
THE DISTANCE ARRAY (aligned with the front's original order, not with
the sort) to `+inf`, then — unless the objective is constant over the
front — add the normalized neighbour gap, read through the sorted order,
to the interior positions `1..n-2`. -/
def crowding_step (front : List ℕ) (fv : List (List ℚ)) (n : ℕ)
    (distances : List (WithTop ℚ)) (obj : ℕ) : List (WithTop ℚ) :=
  let sorted_front := pySorted (fun i j => fvAt fv i obj ≤ fvAt fv j obj) front
  let base := distances.mapIdx
    (fun i d => if i = 0 ∨ i = n - 1 then (⊤ : WithTop ℚ) else d)
  if fvAt fv (sorted_front.getD (n - 1) 0) obj = fvAt fv (sorted_front.getD 0 0) obj
  then base
  else
    let norm := fvAt fv (sorted_front.getD (n - 1) 0) obj -
                fvAt fv (sorted_front.getD 0 0) obj
    base.mapIdx
      (fun i d =>
        if 1 ≤ i ∧ i < n - 1 then
          d + (((fvAt fv (sorted_front.getD (i + 1) 0) obj -
                 fvAt fv (sorted_front.getD (i - 1) 0) obj) / norm : ℚ) : WithTop ℚ)
        else d)

/-- Model of `calculate_crowding_distance`: fronts of size ≤ 2 get all
distances `+inf`; otherwise the distances start at `0.0` and one
`crowding_step` runs per objective. -/
def calculate_crowding_distance (front : List ℕ) (fv : List (List ℚ)) :
    List (WithTop ℚ) :=
  if front.length ≤ 2 then List.replicate front.length ⊤
  else
    let n := front.length
    let objectives := (fv.getD 0 []).length
    (List.range objectives).foldl (crowding_step front fv n)
      (List.replicate n (0 : WithTop ℚ))

/-! ### Initializer and variation operators (`Nsga_II_optimized.py`)

`random.shuffle`, `random.choice`, `random.sample` and `random.randint`
are modelled as explicit parameters: shuffles as arbitrary list-to-list
functions (theorems quantify over them; a permutation hypothesis is
added where a property needs it) and choices as arbitrary naturals
reduced modulo the candidate-list length.  One parameter set per call
site, indexed by the loop position where the Python call sites run in a
loop, covers every draw sequence the global RNG can produce. -/

/-- Default activity value used for out-of-range `getD` reads that the
in-contract code paths never perform. -/
def defaultActivity : Activity := ⟨"", "", "", [], 0⟩

/-- Model of `get_classsize`: summed size of the activity's groups that
exist in `groups_dict`. -/
def get_classsize (env : Env) (activity : Activity) : ℕ :=
  activity.group_ids.foldl
    (fun acc gid =>
      match dictGet env.groups gid with
      | some g => acc + g.size
      | none => acc) 0

/-- Cell lookup `timetable[slot][room]` flattened to an `Option`
(`none` for a missing key or a `None` cell). -/
def cell_at (t : TT) (slot room : String) : Option Activity :=
  (dictGet ((dictGet t slot).getD []) room).getD none

/-- Write `timetable[slot][room] = cell` (creating the slot entry if it
is absent, where Python would raise — no in-contract caller does). -/
def tset (t : TT) (slot room : String) (cell : Option Activity) : TT :=
  dictSet t slot (dictSet ((dictGet t slot).getD []) room cell)

/-- Model of `check_activity_conflicts`: no occupied cell of the slot
shares the teacher, and no occupied cell shares a subgroup. -/
def check_activity_conflicts (activity : Activity) (slot : String) (t : TT) : Bool :=
  let occupied := ((dictGet t slot).getD []).filterMap (fun c => c.2)
  (!occupied.any (fun a => a.teacher_id == activity.teacher_id)) &&
  activity.group_ids.all
    (fun g => !(occupied.flatMap (fun a => a.group_ids)).contains g)

/-- Model of `find_suitable_rooms`: rooms of the rooms table (in table
order) with enough capacity whose cell in this slot is absent or `None`. -/
def find_suitable_rooms (env : Env) (activity : Activity) (slot : String)
    (t : TT) : List String :=
  let size := get_classsize env activity
  (env.spaces.filter
    (fun re =>
      decide (size ≤ re.2.size) &&
      (match dictGet ((dictGet t slot).getD []) re.1 with
       | none => true
       | some none => true
       | some (some _) => false))).map (fun re => re.1)

/-- Random draws consumed by one `generate_initial_population`
individual, indexed by the position of the activity in the sorted
placement order (and, for the fallback room draw, by the slot's scan
position). -/
structure InitRng where
  shuffleF : ℕ → List String → List String
  shuffleA : ℕ → List String → List String
  chooseRoom : ℕ → ℕ
  chooseFallbackRoom : ℕ → ℕ → ℕ

/-- Phase-1 placement walk: the first shuffled feasible slot with a
suitable room receives the activity. -/
def place_first (env : Env) (activity : Activity) (pick : ℕ) (t : TT) :
    List String → Option TT
  | [] => none
  | slot :: rest =>
      match h : find_suitable_rooms env activity slot t with
      | [] => place_first env activity pick t rest
      | r :: rs =>
          some (tset t slot ((r :: rs).getD (pick % (r :: rs).length) r)
            (some activity))

/-- Model of the fallback scan's conflict count for one slot. -/
def count_conflicts (activity : Activity) (slot : String) (t : TT) : ℕ :=
  ((dictGet t slot).getD []).foldl
    (fun acc c =>
      match c.2 with
      | none => acc
      | some act =>
          acc + (if act.teacher_id == activity.teacher_id then 1 else 0) +
          (act.group_ids.filter (fun g => activity.group_ids.contains g)).length)
    0

/-- Fallback scan: over the shuffled slot list, keep the first slot
(with a suitable room) achieving a strictly smaller conflict count, and
draw its room at visit time. -/
def fallback_scan (env : Env) (activity : Activity) (pickF : ℕ → ℕ) (t : TT)
    (slotsList : List String) : Option (String × String) :=
  (slotsList.enum.foldl
    (fun (st : Option (String × String) × WithTop ℕ) se =>
      let rooms := find_suitable_rooms env activity se.2 t
      match rooms with
      | [] => st
      | r :: rs =>
          let conflicts := count_conflicts activity se.2 t
          if (conflicts : WithTop ℕ) < st.2 then
            (some (se.2, (r :: rs).getD (pickF se.1 % (r :: rs).length) r),
             (conflicts : WithTop ℕ))
          else st)
    (none, ⊤)).1

/-- Placement of one activity: phase 1 over the shuffled feasible slots,
then the minimal-conflict fallback; an activity with no suitable room
anywhere is left unplaced. -/
def place_activity (env : Env) (rng : InitRng) (idx : ℕ) (t : TT)
    (activity : Activity) : TT :=
  let feasible := env.slots.filter (fun s => check_activity_conflicts activity s t)
  match place_first env activity (rng.chooseRoom idx) t (rng.shuffleF idx feasible) with
  | some t2 => t2
  | none =>
      match fallback_scan env activity (rng.chooseFallbackRoom idx) t
          (rng.shuffleA idx env.slots) with
      | some sr => tset t sr.1 sr.2 (some activity)
      | none => t

/-- Python tuple `<=` on the `(len(group_ids), duration)` sort key. -/
def keyLe (p q : ℕ × ℕ) : Bool :=
  decide (p.1 < q.1 ∨ (p.1 = q.1 ∧ p.2 ≤ q.2))

/-- Final loop of the initializer: give every missing `(slot, room)`
cell the value `None`. -/
def fill_missing (env : Env) (t : TT) : TT :=
  env.slots.foldl
    (fun t s =>
      env.spaces.foldl
        (fun t re =>
          if dictMem ((dictGet t s).getD []) re.1 then t else tset t s re.1 none)
        t)
    t

/-- Model of one individual of `generate_initial_population`: start with
`{slot: {} for slot in slots}`, place the activities in stable
descending `(len(group_ids), duration)` order, then fill the missing
cells. -/
def generate_individual (env : Env) (rng : InitRng) : TT :=
  let t0 : TT := env.slots.map (fun s => (s, []))
  let sortedActs := pySorted (fun a b => keyLe (b.group_ids.length, b.duration)
    (a.group_ids.length, a.duration)) (dictVals env.activities)
  fill_missing env
    (sortedActs.enum.foldl (fun t ia => place_activity env rng ia.1 t ia.2) t0)

/-- Model of `crossover`: children are copies of the parents with the
slots from the cut index onward exchanged (whole-slot granularity). -/
def crossover (cut : ℕ) (parent1 parent2 : TT) : TT × TT :=
  let slot_list := dictKeys parent1
  ((slot_list.drop cut).foldl
      (fun c s => dictSet c s ((dictGet parent2 s).getD [])) parent1,
   (slot_list.drop cut).foldl
      (fun c s => dictSet c s ((dictGet parent1 s).getD [])) parent2)

/-- Python `random.sample(l, 2)` modelled by two draws giving distinct
positions. -/
def sample2 (p1 p2 : ℕ) (l : List String) : String × String :=
  let i1 := p1 % l.length
  let j := p2 % (l.length - 1)
  let i2 := if j < i1 then j else j + 1
  (l.getD i1 "", l.getD i2 "")

/-- Model of `random_mutation`: swap the contents of two random cells of
two distinct non-empty slots (or return the timetable unchanged when
fewer than two slots are non-empty). -/
def random_mutation (p1 p2 r1 r2 : ℕ) (t : TT) : TT :=
  let non_empty := (dictKeys t).filter
    (fun s => ((dictGet t s).getD []).any (fun c => c.2.isSome))
  if non_empty.length < 2 then t
  else
    let ss := sample2 p1 p2 non_empty
    let rooms1 := dictKeys ((dictGet t ss.1).getD [])
    let rooms2 := dictKeys ((dictGet t ss.2).getD [])
    let room1 := rooms1.getD (r1 % rooms1.length) ""
    let room2 := rooms2.getD (r2 % rooms2.length) ""
    let v1 := cell_at t ss.1 room1
    let v2 := cell_at t ss.2 room2
    tset (tset t ss.1 room1 v2) ss.2 room2 v1

/-- State of `find_violations`'s per-slot scan. -/
structure ViolState where
  viols : List (String × String × Activity)
  lseen : List (String × String)
  gseen : List (String × String)

/-- Model of `find_violations`: triples involved in teacher, group or
capacity conflicts, deduplicated by `(slot, room)` keeping the first
occurrence.  (`spaces_dict[room]` is read with capacity default `0` for
a room outside the table, where Python would raise; in-contract
timetables only hold table rooms.) -/
def find_violations (env : Env) (t : TT) : List (String × String × Activity) :=
  let raw := t.foldl
    (fun (acc : List (String × String × Activity)) slotE =>
      acc ++ (slotE.2.foldl
        (fun (st : ViolState) cellE =>
          match cellE.2 with
          | none => st
          | some act =>
              let st1 :=
                match dictGet st.lseen act.teacher_id with
                | some seenRoom =>
                    { st with viols := st.viols ++ [(slotE.1, cellE.1, act)] ++
                        (match (dictGet slotE.2 seenRoom).getD none with
                         | some sa => [(slotE.1, seenRoom, sa)]
                         | none => []) }
                | none =>
                    { st with lseen := dictSet st.lseen act.teacher_id cellE.1 }
              let st2 := act.group_ids.foldl
                (fun (st : ViolState) g =>
                  match dictGet st.gseen g with
                  | some seenRoom =>
                      { st with viols := st.viols ++ [(slotE.1, cellE.1, act)] ++
                          (match (dictGet slotE.2 seenRoom).getD none with
                           | some sa => [(slotE.1, seenRoom, sa)]
                           | none => []) }
                  | none => { st with gseen := dictSet st.gseen g cellE.1 })
                st1
              let capSize := ((dictGet env.spaces cellE.1).map (fun sp => sp.size)).getD 0
              if get_classsize env act > capSize then
                { st2 with viols := st2.viols ++ [(slotE.1, cellE.1, act)] }
              else st2)
        ⟨[], [], []⟩).viols)
    []
  (raw.foldl
    (fun (st : List (String × String × Activity) × List (String × String)) v =>
      if (v.1, v.2.1) ∈ st.2 then st
      else (st.1 ++ [v], st.2 ++ [(v.1, v.2.1)]))
    ([], [])).1

/-- Random draws consumed by one `repair_mutation` call. -/
structure RepairRng where
  pickViol : ℕ
  shuffleT : List String → List String
  pickRoom : ℕ
  pickSwapSlot : ℕ
  pickSwapRoom : ℕ
  rm1 : ℕ
  rm2 : ℕ
  rm3 : ℕ
  rm4 : ℕ

/-- Relocation walk of `repair_mutation`: the first conflict-free target
slot with a suitable room receives the activity, vacating its old cell. -/
def try_move (env : Env) (act : Activity) (pick : ℕ) (t : TT)
    (fromSlot fromRoom : String) : List String → Option TT
  | [] => none
  | s :: rest =>
      if check_activity_conflicts act s t then
        match find_suitable_rooms env act s t with
        | [] => try_move env act pick t fromSlot fromRoom rest
        | r :: rs =>
            some (tset (tset t fromSlot fromRoom none) s
              ((r :: rs).getD (pick % (r :: rs).length) r) (some act))
      else try_move env act pick t fromSlot fromRoom rest

/-- Model of `repair_mutation`: with no violations fall back to
`random_mutation`; otherwise pick a violation, try to relocate its
activity to a conflict-free slot, and failing that swap it with the
occupant of a random occupied cell of a random other slot. -/
def repair_mutation (env : Env) (rng : RepairRng) (t : TT) : TT :=
  match hv : find_violations env t with
  | [] => random_mutation rng.rm1 rng.rm2 rng.rm3 rng.rm4 t
  | v0 :: vrest =>
      let v := (v0 :: vrest).getD (rng.pickViol % (v0 :: vrest).length) v0
      let target_slots := rng.shuffleT (env.slots.filter (fun s => s ≠ v.1))
      match try_move env v.2.2 rng.pickRoom t v.1 v.2.1 target_slots with
      | some t2 => t2
      | none =>
          match target_slots with
          | [] => t
          | ts0 :: tsrest =>
              let tslot := (ts0 :: tsrest).getD
                (rng.pickSwapSlot % (ts0 :: tsrest).length) ts0
              let rooms_in_target := (((dictGet t tslot).getD []).filter
                (fun c => c.2.isSome)).map (fun c => c.1)
              match rooms_in_target with
              | [] => t
              | rt0 :: rtrest =>
                  let troom := (rt0 :: rtrest).getD
                    (rng.pickSwapRoom % (rt0 :: rtrest).length) rt0
                  let a := cell_at t v.1 v.2.1
                  let b := cell_at t tslot troom
                  tset (tset t v.1 v.2.1 b) tslot troom a

/-- Model of `mutate`: `random.random() < 0.8` (here a Boolean draw)
selects repair mutation, else random mutation. -/
def mutate (env : Env) (useRepair : Bool) (rng : RepairRng) (t : TT) : TT :=
  if useRepair then repair_mutation env rng t
  else random_mutation rng.rm1 rng.rm2 rng.rm3 rng.rm4 t

/-- Structural completeness of a timetable: a slot entry exists for
every slot of the calendar, holding a value for every room of the rooms
table. -/
def complete (env : Env) (t : TT) : Bool :=
  env.slots.all
    (fun s =>
      match dictGet t s with
      | none => false
      | some sd => env.spaces.all (fun re => dictMem sd re.1))

/-- Number of cells of the timetable holding a given activity id. -/
def count_occurrences (t : TT) (aid : String) : ℕ :=
  (t.map
    (fun slotE =>
      (slotE.2.filter
        (fun c =>
          match c.2 with
          | some a => a.id == aid
          | none => false)).length)).sum

/-- The trivial draw resolution: identity shuffles and index-0 choices. -/
def rngId : InitRng := ⟨fun _ l => l, fun _ l => l, fun _ => 0, fun _ _ => 0⟩

end NsgaII

/-! ## Concrete instance for the driver-tail claims

Two activities of the same teacher and group over three slots and one
room.  `ttX7` packs them into adjacent slots (`s1`, `s2`); `ttY7` spreads
them (`s1`, `s3`), which worsens the idle-time soft metric.  Both have
the identical hard-violation tuple `(1, 0, 0, 0, 0)`. -/

/-- First activity of the C7 instance. -/
def actA1 : Activity := ⟨"A1", "S", "L", ["G"], 1⟩

/-- Second activity of the C7 instance. -/
def actA2 : Activity := ⟨"A2", "S", "L", ["G"], 1⟩

/-- Reference data of the C7 instance. -/
def envC7 : Env :=
  ⟨["s1", "s2", "s3"], [("R", ⟨"R", 30⟩)], [("G", ⟨"G", 20⟩)],
   [("A1", actA1), ("A2", actA2)], ["L"]⟩

/-- Timetable with the two activities in adjacent slots (soft `3/5`). -/
def ttX7 : TT :=
  [("s1", [("R", some actA1)]), ("s2", [("R", some actA2)]), ("s3", [("R", none)])]

/-- Timetable with the two activities spread apart (soft `3/10`). -/
def ttY7 : TT :=
  [("s1", [("R", some actA1)]), ("s2", [("R", none)]), ("s3", [("R", some actA2)])]

namespace NsgaII

/-- Model of `dominates` (minimisation): componentwise `<=` over the
zipped tuples and a strict `<` somewhere. -/
def dominates (f1 f2 : List ℚ) : Bool :=
  ((f1.zip f2).all (fun p => decide (p.1 ≤ p.2))) &&
  ((f1.zip f2).any (fun p => decide (p.1 < p.2)))

/-- The dominator test of the double loop of `fast_nondominated_sort`:
index `i` is a distinct dominator of index `j`. -/
def dpredB (fv : List (List ℚ)) (j i : ℕ) : Bool :=
  decide (i ≠ j) && dominates (fv.getD i []) (fv.getD j [])

/-- Final value of `domination_count[i]`: the number of indices `j ≠ i`
whose fitness dominates fitness `i` (the inner loop increments once per
such `j`). -/
def domination_count (fv : List (List ℚ)) (i : ℕ) : ℕ :=
  ((List.range fv.length).filter (dpredB fv i)).length

/-- Final value of `dominated_by[i]`: the indices `j ≠ i` (in ascending
order, as appended by the inner loop) whose fitness is dominated by
fitness `i`. -/
def dominated_by_list (fv : List (List ℚ)) (i : ℕ) : List ℕ :=
  (List.range fv.length).filter
    (fun j => decide (j ≠ i) && dominates (fv.getD i []) (fv.getD j []))

/-- One `domination_count[j] -= 1` step of the front-peeling loop,
appending `j` to the next front when the count reaches exactly zero. -/
def decr_step (st : List ℤ × List ℕ) (j : ℕ) : List ℤ × List ℕ :=
  let c2 := st.1.set j (st.1.getD j 0 - 1)
  if c2.getD j 0 = 0 then (c2, st.2 ++ [j]) else (c2, st.2)

/-- The body of one `while` iteration: decrement the counts of all
indices dominated by members of the current front (in front order,
inner lists in their stored order) and collect the next front. -/
def process_front (db : List (List ℕ)) (counts : List ℤ) (front : List ℕ) :
    List ℤ × List ℕ :=
  (front.flatMap (fun i => db.getD i [])).foldl decr_step (counts, [])

/-- The `while fronts[front_index]` loop with explicit fuel (the run
never exhausts `n + 1` rounds: each round retires at least one index).
The final empty front is not emitted, matching `fronts[:-1]`. -/
def fns_rounds (db : List (List ℕ)) : ℕ → List ℤ → List ℕ → List (List ℕ)
  | 0, _, _ => []
  | fuel + 1, counts, front =>
      if front.isEmpty then []
      else
        let st := process_front db counts front
        front :: fns_rounds db fuel st.1 st.2

/-- Model of `fast_nondominated_sort`. -/
def fast_nondominated_sort (fv : List (List ℚ)) : List (List ℕ) :=
  let n := fv.length
  let db := (List.range n).map (dominated_by_list fv)
  let counts : List ℤ := (List.range n).map (fun i => (domination_count fv i : ℤ))
  let front0 := (List.range n).filter (fun i => domination_count fv i == 0)
  fns_rounds db (n + 1) counts front0

/-- Count of dominators of `j` lying in the index list `L`. -/
def DcapL (fv : List (List ℚ)) (j : ℕ) (L : List ℕ) : ℕ :=
  (L.filter (dpredB fv j)).length

/-- Loop invariant of the front-peeling rounds: `P` is the list of
already-emitted indices, `front` the about-to-be-emitted front. -/
def FnsInv (fv : List (List ℚ)) (counts : List ℤ) (front P : List ℕ)
    (fuel : ℕ) : Prop :=
  counts.length = fv.length ∧
  P.Nodup ∧ front.Nodup ∧
  (∀ j ∈ P, j < fv.length) ∧ (∀ j ∈ front, j < fv.length) ∧
  (∀ j ∈ front, j ∉ P) ∧
  (∀ j, j < fv.length →
    counts.getD j 0 = (domination_count fv j : ℤ) - (DcapL fv j P : ℤ)) ∧
  (∀ j ∈ front, ∀ i, dpredB fv j i = true → i ∈ P) ∧
  (∀ j ∈ P, ∀ i, dpredB fv j i = true → i ∈ P) ∧
  (∀ j, j < fv.length → j ∉ P → j ∉ front →
    DcapL fv j P < domination_count fv j) ∧
  (fv.length + 1 ≤ P.length + fuel)

/-- What the emitted rounds guarantee, relative to the already-emitted
prefix `P`. -/
def FnsRes (fv : List (List ℚ)) (fronts : List (List ℕ)) (P : List ℕ) : Prop :=
  (∀ j, j < fv.length → j ∈ P ∨ ∃ k, j ∈ fronts.getD k []) ∧
  (∀ k j, j ∈ fronts.getD k [] → j < fv.length ∧ j ∉ P) ∧
  (∀ k, (fronts.getD k []).Nodup) ∧
  (∀ k1 k2 j, j ∈ fronts.getD k1 [] → j ∈ fronts.getD k2 [] → k1 = k2) ∧
  (∀ k j i, j ∈ fronts.getD k [] → dpredB fv j i = true →
    i ∈ P ∨ ∃ k2, k2 < k ∧ i ∈ fronts.getD k2 [])

end NsgaII

/-! ## Concrete instance for the initializer and operator claims

One duration-2 activity, two slots and one big enough room: the
initializer has conflict-free feasible options in both slots yet places
the activity exactly once. -/

/-- Reference data of the initializer instance. -/
def env5 : Env :=
  ⟨["s1", "s2"], [("R", ⟨"R", 30⟩)], [("G", ⟨"G", 20⟩)],
   [("A", ⟨"A", "S", "L", ["G"], 2⟩)], ["L"]⟩

/-- An (all-vacant) structurally complete timetable over `env5`. -/
def tt5c : TT :=
  [("s1", [("R", none)]), ("s2", [("R", none)])]

/-- Trivial draw resolution for `repair_mutation`. -/
def rrngId : NsgaII.RepairRng := ⟨0, fun l => l, 0, 0, 0, 0, 0, 0, 0⟩

/-- Three two-objective fitness vectors for the sorting claim. -/
def fvC8 : List (List ℚ) := [[0, 0], [1, 1], [0, 1]]

/-- Invariant of `find_best_solution`'s fold state: either nothing has
been seen yet, or the current best is a recorded individual whose
violation sum is the running minimum. -/
def BestInv (env : Env) (st : Option TT × WithTop ℤ) : Prop :=
  (st.1 = none ∧ st.2 = ⊤) ∨
  (∃ b vb, st.1 = some b ∧
    evaluate_hard_constraints env (liftTT b) = Except.ok vb ∧
    st.2 = (violationSum vb : WithTop ℤ))

/-! # Supporting lemmas -/

theorem foldlM_fun_congr {m : Type u → Type v} [Monad m] {α : Type w} {β : Type u}
    (f g : β → α → m β) (l : List α) (b : β) (h : ∀ st x, f st x = g st x) :
    l.foldlM f b = l.foldlM g b := by
  induction l generalizing b with
  | nil => rfl
  | cons x xs ih =>
      rw [List.foldlM_cons, List.foldlM_cons, h]
      exact congrArg (fun k => g b x >>= k) (funext fun b2 => ih b2)

theorem dictGet_isSome_of_mem (d : List (String × α)) (k : String)
    (h : dictMem d k = true) : ∃ v, dictGet d k = some v := by
  unfold dictMem at h
  rcases List.any_eq_true.mp h with ⟨e, he, hk⟩
  have hs : (d.find? (fun e => e.1 == k)).isSome := List.find?_isSome.mpr ⟨e, he, hk⟩
  rcases Option.isSome_iff_exists.mp hs with ⟨v, hv⟩
  exact ⟨v.2, by unfold dictGet; rw [hv]; rfl⟩

theorem process_activity_ok (env : Env) (cell : PyCell) (room : String)
    (acc : SlotAcc) (seen : List String) (h : dictMem env.spaces room = true) :
    ∃ r, process_activity env cell room acc seen = Except.ok r := by
  cases cell with
  | empty => exact ⟨_, rfl⟩
  | invalid s => exact ⟨_, rfl⟩
  | act a =>
      obtain ⟨v, hv⟩ := dictGet_isSome_of_mem env.spaces room h
      simp only [process_activity, check_room_capacity, hv]
      exact ⟨_, rfl⟩

theorem process_time_slot_ok (env : Env) (slotData : List (String × PyCell))
    (h : ∀ e ∈ slotData, dictMem env.spaces e.1 = true) :
    ∀ st : SlotAcc × List String, ∃ r,
      slotData.foldlM
        (fun (st : SlotAcc × List String) e => process_activity env e.2 e.1 st.1 st.2)
        st = Except.ok r := by
  induction slotData with
  | nil => intro st; exact ⟨st, rfl⟩
  | cons e es ih =>
      intro st
      obtain ⟨r1, hr1⟩ := process_activity_ok env e.2 e.1 st.1 st.2 (h e (by simp))
      obtain ⟨r2, hr2⟩ := ih (fun x hx => h x (by simp [hx])) r1
      refine ⟨r2, ?_⟩
      rw [List.foldlM_cons, hr1]
      exact hr2

theorem evaluate_hard_constraints_ok (env : Env) (t : EvalTT)
    (h : ∀ e ∈ t, ∀ c ∈ e.2, dictMem env.spaces c.1 = true) :
    ∃ v, evaluate_hard_constraints env t = Except.ok v := by
  unfold evaluate_hard_constraints
  suffices hs : ∀ st : (ℕ × ℕ × ℕ × ℕ) × List String, ∃ r,
      t.foldlM
        (fun (st : (ℕ × ℕ × ℕ × ℕ) × List String) slotEntry => do
          let slotRes ← process_time_slot env slotEntry.2 st.2
          let acc := slotRes.1
          Except.ok ((st.1.1 + acc.vacant, st.1.2.1 + acc.profConf,
                      st.1.2.2.1 + acc.roomSizeConf, st.1.2.2.2 + acc.subGroupConf),
                     slotRes.2))
        st = Except.ok r by
    obtain ⟨r, hr⟩ := hs ((0, 0, 0, 0), [])
    exact ⟨_, by rw [hr]; rfl⟩
  induction t with
  | nil => intro st; exact ⟨st, rfl⟩
  | cons e es ih =>
      intro st
      obtain ⟨r1, hr1⟩ := process_time_slot_ok env e.2 (fun c hc => h e (by simp) c hc)
        (SlotAcc.init, st.2)
      obtain ⟨r2, hr2⟩ := ih (fun x hx c hc => h x (by simp [hx]) c hc) _
      refine ⟨r2, ?_⟩
      rw [List.foldlM_cons]
      have hpts : process_time_slot env e.2 st.2 = Except.ok r1 := hr1
      rw [hpts]
      exact hr2

theorem process_activity_erase (env : Env) (cell : PyCell) (room : String)
    (acc : SlotAcc) (seen : List String) :
    process_activity env (erase_invalid_cell cell) room acc seen =
    process_activity env cell room acc seen := by
  cases cell <;> rfl

theorem process_time_slot_erase (env : Env) (slotData : List (String × PyCell))
    (seen : List String) :
    process_time_slot env (slotData.map (fun c => (c.1, erase_invalid_cell c.2))) seen =
    process_time_slot env slotData seen := by
  unfold process_time_slot
  rw [List.foldlM_map]
  exact foldlM_fun_congr _ _ _ _ (fun st e => by rw [process_activity_erase])

theorem evaluate_hard_constraints_erase (env : Env) (t : EvalTT) :
    evaluate_hard_constraints env (erase_invalid t) =
    evaluate_hard_constraints env t := by
  unfold evaluate_hard_constraints erase_invalid
  rw [List.foldlM_map]
  have hfold : ∀ st : (ℕ × ℕ × ℕ × ℕ) × List String,
      t.foldlM
        (fun (st : (ℕ × ℕ × ℕ × ℕ) × List String) slotEntry => do
          let slotRes ← process_time_slot env
            (slotEntry.2.map (fun c => (c.1, erase_invalid_cell c.2))) st.2
          Except.ok ((st.1.1 + slotRes.1.vacant, st.1.2.1 + slotRes.1.profConf,
                      st.1.2.2.1 + slotRes.1.roomSizeConf,
                      st.1.2.2.2 + slotRes.1.subGroupConf), slotRes.2))
        st =
      t.foldlM
        (fun (st : (ℕ × ℕ × ℕ × ℕ) × List String) slotEntry => do
          let slotRes ← process_time_slot env slotEntry.2 st.2
          Except.ok ((st.1.1 + slotRes.1.vacant, st.1.2.1 + slotRes.1.profConf,
                      st.1.2.2.1 + slotRes.1.roomSizeConf,
                      st.1.2.2.2 + slotRes.1.subGroupConf), slotRes.2))
        st := by
    intro st
    exact foldlM_fun_congr _ _ _ _ (fun st e => by rw [process_time_slot_erase])
  rw [hfold]

theorem update_ideal_point_one_cons [LinearOrder α] (a b : α) (z f : List α) :
    Moead.update_ideal_point_one (a :: z) (b :: f) =
      min a b :: Moead.update_ideal_point_one z f := by
  simp [Moead.update_ideal_point_one]

theorem length_update_ideal_point_one [LinearOrder α] (z f : List α) :
    (Moead.update_ideal_point_one z f).length = z.length := by
  simp [Moead.update_ideal_point_one]
  omega

theorem getD_update_ideal_point_one [LinearOrder α] (z f : List α) (i : ℕ) (d : α) :
    (Moead.update_ideal_point_one z f).getD i d =
      if i < z.length ∧ i < f.length then min (z.getD i d) (f.getD i d)
      else z.getD i d := by
  induction z generalizing f i with
  | nil => simp [Moead.update_ideal_point_one]
  | cons a z ih =>
      cases f with
      | nil => simp [Moead.update_ideal_point_one]
      | cons b f =>
          rw [update_ideal_point_one_cons]
          cases i with
          | zero => simp
          | succ i =>
              simp only [List.getD_cons_succ, ih, List.length_cons]
              simp [Nat.succ_lt_succ_iff]

theorem length_update_ideal_point [LinearOrder α] (evals : List (List α × β))
    (z : List α) : (Moead.update_ideal_point evals z).length = z.length := by
  induction evals generalizing z with
  | nil => rfl
  | cons e es ih =>
      unfold Moead.update_ideal_point at ih ⊢
      rw [List.foldl_cons, ih, length_update_ideal_point_one]

theorem foldl_min_le_seed [LinearOrder α] (l : List α) (a : α) :
    l.foldl min a ≤ a := by
  induction l generalizing a with
  | nil => exact le_refl a
  | cons x xs ih => exact le_trans (ih (min a x)) (min_le_left a x)

theorem getD_update_ideal_point [LinearOrder α] (evals : List (List α × β))
    (z : List α) (i : ℕ) (d : α) (hi : i < z.length) :
    (Moead.update_ideal_point evals z).getD i d =
      (evals.filterMap (fun fe => fe.1[i]?)).foldl min (z.getD i d) := by
  induction evals generalizing z with
  | nil => rfl
  | cons e es ih =>
      unfold Moead.update_ideal_point
      rw [List.foldl_cons, List.filterMap_cons]
      have hlen : i < (Moead.update_ideal_point_one z e.1).length := by
        rw [length_update_ideal_point_one]; exact hi
      cases hfi : e.1[i]? with
      | none =>
          have hge : ¬ i < e.1.length := by
            intro hc
            rw [List.getElem?_eq_getElem hc] at hfi
            exact Option.noConfusion hfi
          have : (Moead.update_ideal_point_one z e.1).getD i d = z.getD i d := by
            rw [getD_update_ideal_point_one]
            simp [hge]
          rw [← this]
          exact ih (Moead.update_ideal_point_one z e.1) hlen
      | some v =>
          have hlt : i < e.1.length := by
            by_contra hc
            rw [List.getElem?_eq_none (by omega)] at hfi
            exact Option.noConfusion hfi
          have hv : v = e.1.getD i d := by
            have hsome := List.getElem?_eq_getElem hlt
            rw [hfi] at hsome
            rw [List.getD_eq_getElem e.1 d hlt]
            exact (Option.some.inj hsome)
          have hone : (Moead.update_ideal_point_one z e.1).getD i d
              = min (z.getD i d) (e.1.getD i d) := by
            rw [getD_update_ideal_point_one]
            simp [hi, hlt]
          rw [List.foldl_cons, hv, ← hone]
          exact ih (Moead.update_ideal_point_one z e.1) hlen

theorem update_ideal_point_flatten [LinearOrder α]
    (gens : List (List (List α × β))) (z : List α) :
    gens.foldl (fun z ev => Moead.update_ideal_point ev z) z =
      Moead.update_ideal_point (gens.flatMap id) z := by
  induction gens generalizing z with
  | nil => rfl
  | cons g gs ih =>
      rw [List.foldl_cons, ih, List.flatMap_cons]
      unfold Moead.update_ideal_point
      rw [List.foldl_append]
      rfl

theorem getD_mapIdx (l : List α) (f : ℕ → α → α) (i : ℕ) (d : α)
    (hi : i < l.length) : (l.mapIdx f).getD i d = f i (l.getD i d) := by
  rw [List.getD_eq_getElem _ _ (by simpa [List.length_mapIdx] using hi),
      List.getD_eq_getElem _ _ hi, List.getElem_mapIdx]

theorem getD_replicate_of_lt (a d : α) (hn : i < n) :
    (List.replicate n a).getD i d = a := by
  rw [List.getD_eq_getElem _ _ (by simpa using hn), List.getElem_replicate]

theorem length_crowding_step (front : List ℕ) (fv : List (List ℚ)) (n : ℕ)
    (distances : List (WithTop ℚ)) (obj : ℕ) :
    (NsgaII.crowding_step front fv n distances obj).length = distances.length := by
  unfold NsgaII.crowding_step
  dsimp only
  split <;> simp [List.length_mapIdx]

theorem crowding_step_boundary (front : List ℕ) (fv : List (List ℚ)) (n : ℕ)
    (distances : List (WithTop ℚ)) (obj : ℕ) (hlen : distances.length = n)
    (hn : 1 ≤ n) :
    (NsgaII.crowding_step front fv n distances obj).getD 0 0 = ⊤ ∧
    (NsgaII.crowding_step front fv n distances obj).getD (n - 1) 0 = ⊤ := by
  have h0 : 0 < distances.length := by omega
  have h1 : n - 1 < distances.length := by omega
  unfold NsgaII.crowding_step
  dsimp only
  split
  · constructor
    · rw [getD_mapIdx _ _ _ _ h0]; simp
    · rw [getD_mapIdx _ _ _ _ h1]; simp
  · have hb0 : 0 < (distances.mapIdx
        (fun i d => if i = 0 ∨ i = n - 1 then (⊤ : WithTop ℚ) else d)).length := by
      simpa [List.length_mapIdx] using h0
    have hb1 : n - 1 < (distances.mapIdx
        (fun i d => if i = 0 ∨ i = n - 1 then (⊤ : WithTop ℚ) else d)).length := by
      simpa [List.length_mapIdx] using h1
    constructor
    · rw [getD_mapIdx _ _ _ _ hb0, getD_mapIdx _ _ _ _ h0]; simp
    · rw [getD_mapIdx _ _ _ _ hb1, getD_mapIdx _ _ _ _ h1]; simp

theorem foldl_crowding_boundary (front : List ℕ) (fv : List (List ℚ)) (n : ℕ)
    (objs : List ℕ) (init : List (WithTop ℚ)) (hne : objs ≠ [])
    (hinit : init.length = n) (hn : 1 ≤ n) :
    (objs.foldl (NsgaII.crowding_step front fv n) init).getD 0 0 = ⊤ ∧
    (objs.foldl (NsgaII.crowding_step front fv n) init).getD (n - 1) 0 = ⊤ ∧
    (objs.foldl (NsgaII.crowding_step front fv n) init).length = n := by
  induction objs generalizing init with
  | nil => exact absurd rfl hne
  | cons o os ih =>
      rw [List.foldl_cons]
      have hlen : (NsgaII.crowding_step front fv n init o).length = n := by
        rw [length_crowding_step]; exact hinit
      cases os with
      | nil =>
          obtain ⟨ha, hb⟩ := crowding_step_boundary front fv n init o hinit hn
          exact ⟨ha, hb, hlen⟩
      | cons o2 os2 => exact ih _ (by simp) hlen

/-! # Claim C6: crowding-distance boundary members -/

/-- Claim C6 (crowding distance): the source sets `distances[0]` and
`distances[-1]` — the first and last positions of the front in its given
order — to `+inf`, not the positions of the per-objective sorted
boundary members.  On the front `[0, 1, 2]` with fitness vectors
`[[5,10],[1,2],[9,18]]`, member `1` holds the strict minimum of both
objectives (so it is first under every per-objective sort), yet its
crowding distance is the finite `2`, while the non-boundary member `0`
receives `+inf`. -/
theorem C6_crowding_counterexample :
    NsgaII.calculate_crowding_distance [0, 1, 2] [[5, 10], [1, 2], [9, 18]] =
      [⊤, ((2 : ℚ) : WithTop ℚ), ⊤] ∧
    (∀ obj ∈ [0, 1], ∀ j ∈ [0, 2],
      NsgaII.fvAt [[5, 10], [1, 2], [9, 18]] 1 obj <
        NsgaII.fvAt [[5, 10], [1, 2], [9, 18]] j obj) ∧
    ((2 : ℚ) : WithTop ℚ) ≠ ⊤ := by
  refine ⟨?_, ?_, by simp⟩
  · norm_num [NsgaII.calculate_crowding_distance, NsgaII.crowding_step, NsgaII.fvAt,
      pySorted, sortedInsert, List.range_succ, List.replicate_succ,
      List.mapIdx_cons, List.mapIdx_nil]
  · intro obj hobj j hj
    fin_cases hobj <;> fin_cases hj <;> norm_num [NsgaII.fvAt]

/-- Claim C6, amended: for every front and fitness table with at least
one objective, `calculate_crowding_distance` returns a list of the
front's length whose entries at positions `0` and `n-1` (the first and
last members of the front in its original order) are `+inf` — regardless
of which members are the per-objective boundary members. -/
theorem C6_crowding_amended (front : List ℕ) (fv : List (List ℚ))
    (h1 : 1 ≤ front.length) (h2 : 1 ≤ (fv.getD 0 []).length) :
    (NsgaII.calculate_crowding_distance front fv).getD 0 0 = ⊤ ∧
    (NsgaII.calculate_crowding_distance front fv).getD (front.length - 1) 0 = ⊤ ∧
    (NsgaII.calculate_crowding_distance front fv).length = front.length := by
  unfold NsgaII.calculate_crowding_distance
  split
  · refine ⟨getD_replicate_of_lt _ _ (by omega), getD_replicate_of_lt _ _ (by omega), by simp⟩
  · have hne : List.range ((fv.getD 0 []).length) ≠ [] := by
      rw [Ne, List.range_eq_nil]
      omega
    exact foldl_crowding_boundary front fv front.length _ _ hne (by simp) (by omega)

/-- Witness for `C6_crowding_amended` at the counterexample's input. -/
theorem C6_crowding_amended_witness :
    (1 ≤ ([0, 1, 2] : List ℕ).length ∧
      1 ≤ (([[5, 10], [1, 2], [9, 18]] : List (List ℚ)).getD 0 []).length) ∧
    (NsgaII.calculate_crowding_distance [0, 1, 2] [[5, 10], [1, 2], [9, 18]]).getD 0 0 = ⊤ ∧
    (NsgaII.calculate_crowding_distance [0, 1, 2] [[5, 10], [1, 2], [9, 18]]).getD
      (([0, 1, 2] : List ℕ).length - 1) 0 = ⊤ ∧
    (NsgaII.calculate_crowding_distance [0, 1, 2] [[5, 10], [1, 2], [9, 18]]).length =
      ([0, 1, 2] : List ℕ).length :=
  ⟨⟨by decide, by decide⟩,
   C6_crowding_amended [0, 1, 2] [[5, 10], [1, 2], [9, 18]] (by decide) (by decide)⟩

/-! # Claim C1: degenerate behaviour of the quality indicators -/

/-- Claim C1 (quality indicators return `0.0` on empty or single-point
fronts): false.  `calculate_igd` returns `float('inf')` — not `0.0` —
when the front is empty, and `calculate_hypervolume` on the single point
`(1/2, 1/2)` with the default reference point `(1, 1)` returns `1/4`,
not `0.0`. -/
theorem C1_indicators_counterexample :
    calculate_igd [] [(0, 0)] = ⊤ ∧ (⊤ : WithTop ℝ) ≠ 0 ∧
    calculate_hypervolume [(1 / 2, 1 / 2)] (1, 1) = 1 / 4 ∧ ((1 : ℚ) / 4) ≠ 0 := by
  refine ⟨by simp [calculate_igd], by simp, ?_, by norm_num⟩
  norm_num [calculate_hypervolume, calculate_simple_hypervolume,
    minFst, minSnd, maxFst, maxSnd]

/-- Claim C1, amended: `calculate_hypervolume` returns `0.0` on an empty
front but the product `(ref - p)` on a single point; `calculate_spacing`
returns `0.0` on fronts with fewer than two points; `calculate_igd`
returns `+inf` when either front is empty.  (In the rational/real model
all three functions are total, so no exception and no NaN arises on the
modelled inputs.) -/
theorem C1_indicators_amended (p ref : ℚ × ℚ) (frontS frontI refF : List (ℚ × ℚ))
    (hS : frontS.length < 2) (hI : frontI = [] ∨ refF = []) :
    calculate_hypervolume [] ref = 0 ∧
    calculate_hypervolume [p] ref = (ref.1 - p.1) * (ref.2 - p.2) ∧
    calculate_spacing frontS = 0 ∧
    calculate_igd frontI refF = ⊤ := by
  refine ⟨rfl, ?_, ?_, ?_⟩
  · norm_num [calculate_hypervolume, calculate_simple_hypervolume,
      minFst, minSnd, maxFst, maxSnd]
  · unfold calculate_spacing; rw [if_pos hS]
  · unfold calculate_igd; rw [if_pos hI]

/-- Witness for `C1_indicators_amended` at concrete degenerate inputs. -/
theorem C1_indicators_amended_witness :
    (([((3 : ℚ), (4 : ℚ))] : List (ℚ × ℚ)).length < 2 ∧
      (([] : List (ℚ × ℚ)) = [] ∨ ([((0 : ℚ), (0 : ℚ))] : List (ℚ × ℚ)) = [])) ∧
    calculate_hypervolume [] ((1 : ℚ), (1 : ℚ)) = 0 ∧
    calculate_hypervolume [((3 : ℚ), (4 : ℚ))] ((1 : ℚ), (1 : ℚ)) =
      (((1 : ℚ), (1 : ℚ)).1 - ((3 : ℚ), (4 : ℚ)).1) *
      (((1 : ℚ), (1 : ℚ)).2 - ((3 : ℚ), (4 : ℚ)).2) ∧
    calculate_spacing [((3 : ℚ), (4 : ℚ))] = 0 ∧
    calculate_igd [] [((0 : ℚ), (0 : ℚ))] = ⊤ :=
  ⟨⟨by decide, Or.inl rfl⟩,
   C1_indicators_amended ((3 : ℚ), (4 : ℚ)) ((1 : ℚ), (1 : ℚ)) [((3 : ℚ), (4 : ℚ))]
     [] [((0 : ℚ), (0 : ℚ))] (by decide) (Or.inl rfl)⟩

/-! # Claim C2: evaluator behaviour on malformed cells -/

/-- Claim C2 (fail fast on dangling cell values): false.  A timetable
whose only cell holds a dangling activity id (a non-`Activity` value) is
evaluated without any error; the cell is silently counted as a vacant
room, exactly as an empty cell would be. -/
theorem C2_evaluator_counterexample :
    evaluate_hard_constraints
      ⟨["s1"], [("R", ⟨"R", 30⟩)], [], [], []⟩
      [("s1", [("R", PyCell.invalid "A1")])] = Except.ok (1, 0, 0, 0, 0) := rfl

/-- Claim C2, amended: `evaluate_hard_constraints` never fails on a
timetable whose cell keys are all rooms of the rooms table (in
particular on every structurally well-formed timetable), and it cannot
distinguish a timetable from the one in which every invalid cell value
is replaced by `None` — a dangling activity id is silently treated as an
empty cell, not rejected. -/
theorem C2_evaluator_amended (env : Env) (t : EvalTT)
    (h : ∀ e ∈ t, ∀ c ∈ e.2, dictMem env.spaces c.1 = true) :
    (∃ v, evaluate_hard_constraints env t = Except.ok v) ∧
    evaluate_hard_constraints env (erase_invalid t) =
      evaluate_hard_constraints env t :=
  ⟨evaluate_hard_constraints_ok env t h, evaluate_hard_constraints_erase env t⟩

/-- Witness for `C2_evaluator_amended` at the counterexample's input. -/
theorem C2_evaluator_amended_witness :
    (∀ e ∈ ([("s1", [("R", PyCell.invalid "A1")])] : EvalTT), ∀ c ∈ e.2,
        dictMem ([("R", (⟨"R", 30⟩ : Space))]) c.1 = true) ∧
    ((∃ v, evaluate_hard_constraints ⟨["s1"], [("R", ⟨"R", 30⟩)], [], [], []⟩
        [("s1", [("R", PyCell.invalid "A1")])] = Except.ok v) ∧
      evaluate_hard_constraints ⟨["s1"], [("R", ⟨"R", 30⟩)], [], [], []⟩
        (erase_invalid [("s1", [("R", PyCell.invalid "A1")])]) =
      evaluate_hard_constraints ⟨["s1"], [("R", ⟨"R", 30⟩)], [], [], []⟩
        [("s1", [("R", PyCell.invalid "A1")])]) :=
  ⟨by decide,
   C2_evaluator_amended ⟨["s1"], [("R", ⟨"R", 30⟩)], [], [], []⟩
     [("s1", [("R", PyCell.invalid "A1")])] (by decide)⟩

/-! # Claim C3: SPEA2 fitness is random, not the shared evaluator -/

/-- Claim C3 (SPEA2's fitness equals the shared evaluator's scores and
is deterministic in the timetable): the code's `evaluate_individual`, as
invoked by `evaluate_population_fitness` (never with an
`evaluator_instance`), returns the next two RNG draws.  It is constant
in the timetable, two different draw prefixes give the same timetable
two different fitnesses, and two identical empty timetables in one
population receive different fitnesses. -/
theorem C3_spea2_random_fitness :
    (∀ (r : ℕ) (u : ℚ) (t1 t2 : TT),
      Spea2.evaluate_individual r u t1 = Spea2.evaluate_individual r u t2) ∧
    Spea2.evaluate_individual 0 0 ([] : TT) ≠ Spea2.evaluate_individual 1 0 ([] : TT) ∧
    Spea2.evaluate_population_fitness (fun i => (i, 0)) [([] : TT), ([] : TT)] =
      [(0, 0), (1, 0)] := by
  refine ⟨fun r u t1 t2 => rfl, ?_, ?_⟩
  · norm_num [Spea2.evaluate_individual, Prod.ext_iff]
  · norm_num [Spea2.evaluate_population_fitness, Spea2.evaluate_individual, List.enum]

/-! # Claim C9: MOEA/D ideal point -/

/-- Claim C9 (the MOEA/D ideal point is the running component-wise
minimum and never increases): one `update_ideal_point` call keeps the
length, turns each component into the minimum of its old value and every
observed value at that index, hence never increases any component; and a
whole run (a fold of calls over generations, seeded in the source with
`[inf, inf]`, here any start vector over a linear order such as
`WithTop ℚ`) yields the component-wise minimum of the seed and all
fitness vectors observed so far. -/
theorem C9_ideal_point_theorem [LinearOrder α] (d : α)
    (evals : List (List α × β)) (gens : List (List (List α × β)))
    (z : List α) (i : ℕ) (hi : i < z.length) :
    (Moead.update_ideal_point evals z).length = z.length ∧
    (Moead.update_ideal_point evals z).getD i d =
      (evals.filterMap (fun fe => fe.1[i]?)).foldl min (z.getD i d) ∧
    (Moead.update_ideal_point evals z).getD i d ≤ z.getD i d ∧
    (gens.foldl (fun z ev => Moead.update_ideal_point ev z) z).getD i d =
      ((gens.flatMap id).filterMap (fun fe => fe.1[i]?)).foldl min (z.getD i d) := by
  refine ⟨length_update_ideal_point evals z,
    getD_update_ideal_point evals z i d hi, ?_, ?_⟩
  · rw [getD_update_ideal_point evals z i d hi]
    exact foldl_min_le_seed _ _
  · rw [update_ideal_point_flatten, getD_update_ideal_point _ z i d hi]

/-- Witness for `C9_ideal_point_theorem` over `WithTop ℚ` with the
source's `[inf, inf]` seed. -/
theorem C9_ideal_point_witness :
    (0 < ([⊤, ⊤] : List (WithTop ℚ)).length) ∧
    (Moead.update_ideal_point [([(3 : WithTop ℚ), 5], (0 : ℕ))] [⊤, ⊤]).getD 0 0 =
      (([([(3 : WithTop ℚ), 5], (0 : ℕ))].filterMap
          (fun fe => fe.1[0]?)).foldl min (([⊤, ⊤] : List (WithTop ℚ)).getD 0 0)) :=
  ⟨by decide,
   (C9_ideal_point_theorem 0 [([(3 : WithTop ℚ), 5], (0 : ℕ))] []
     [⊤, ⊤] 0 (by decide)).2.1⟩

/-! # Claim C7: driver returns the best individual -/

theorem find_best_step (env : Env) (st : Option TT × WithTop ℤ) (t : TT)
    (v : ℕ × ℕ × ℕ × ℕ × ℤ)
    (hv : evaluate_hard_constraints env (liftTT t) = Except.ok v) :
    (do
      let hv ← evaluate_hard_constraints env (liftTT t)
      let w := violationSum hv
      if (w : WithTop ℤ) < st.2 then Except.ok (some t, (w : WithTop ℤ))
      else Except.ok st : Except String (Option TT × WithTop ℤ)) =
      if ((violationSum v : ℤ) : WithTop ℤ) < st.2 then
        Except.ok (some t, ((violationSum v : ℤ) : WithTop ℤ))
      else Except.ok st := by
  rw [hv]
  rfl

theorem find_best_fold (env : Env) (pop : List TT)
    (hok : ∀ t ∈ pop, ∃ v, evaluate_hard_constraints env (liftTT t) = Except.ok v) :
    ∀ st0 : Option TT × WithTop ℤ, BestInv env st0 →
    ∃ r : Option TT × WithTop ℤ,
      pop.foldlM
        (fun (st : Option TT × WithTop ℤ) sol => do
          let hv ← evaluate_hard_constraints env (liftTT sol)
          let w := violationSum hv
          if (w : WithTop ℤ) < st.2 then Except.ok (some sol, (w : WithTop ℤ))
          else Except.ok st) st0 = Except.ok r ∧
      BestInv env r ∧ r.2 ≤ st0.2 ∧
      (∀ t ∈ pop, ∀ vt, evaluate_hard_constraints env (liftTT t) = Except.ok vt →
        r.2 ≤ ((violationSum vt : ℤ) : WithTop ℤ)) ∧
      (r.1 = st0.1 ∨ ∃ b ∈ pop, r.1 = some b) := by
  induction pop with
  | nil =>
      intro st0 hinv
      exact ⟨st0, rfl, hinv, le_refl _, by simp, Or.inl rfl⟩
  | cons t ts ih =>
      intro st0 hinv
      obtain ⟨v, hv⟩ := hok t (by simp)
      have hok2 : ∀ x ∈ ts, ∃ w, evaluate_hard_constraints env (liftTT x) = Except.ok w :=
        fun x hx => hok x (by simp [hx])
      rw [List.foldlM_cons, find_best_step env st0 t v hv]
      by_cases hc : ((violationSum v : ℤ) : WithTop ℤ) < st0.2
      · rw [if_pos hc]
        obtain ⟨r, hr, hinv2, hle, hall, hor⟩ := ih hok2
          (some t, ((violationSum v : ℤ) : WithTop ℤ))
          (Or.inr ⟨t, v, rfl, hv, rfl⟩)
        refine ⟨r, hr, hinv2, le_trans hle (le_of_lt hc), ?_, ?_⟩
        · intro x hx vt hvt
          rcases List.mem_cons.mp hx with hxt | hxts
          · subst hxt
            rw [hv] at hvt
            cases Except.ok.inj hvt
            exact hle
          · exact hall x hxts vt hvt
        · rcases hor with h | ⟨b, hb, hsome⟩
          · exact Or.inr ⟨t, by simp, h⟩
          · exact Or.inr ⟨b, by simp [hb], hsome⟩
      · rw [if_neg hc]
        obtain ⟨r, hr, hinv2, hle, hall, hor⟩ := ih hok2 st0 hinv
        refine ⟨r, hr, hinv2, hle, ?_, ?_⟩
        · intro x hx vt hvt
          rcases List.mem_cons.mp hx with hxt | hxts
          · subst hxt
            rw [hv] at hvt
            cases Except.ok.inj hvt
            exact le_trans hle (le_of_not_lt hc)
          · exact hall x hxts vt hvt
        · rcases hor with h | ⟨b, hb, hsome⟩
          · exact Or.inl h
          · exact Or.inr ⟨b, by simp [hb], hsome⟩

/-- Claim C7 (driver returns the lexicographic `(hard asc, soft desc)`
best): false.  On the population `[ttY7, ttX7]` the two timetables have
identical hard-violation tuples while `ttX7` has the strictly better
(greater) soft score, so the claimed rule must return `ttX7`; the
source's `find_best_solution` returns `ttY7`, because it minimizes only
`sum(hard_violations)` over the scan order and never consults the soft
score. -/
theorem C7_find_best_counterexample :
    find_best_solution envC7 [ttY7, ttX7] = Except.ok (some ttY7) ∧
    evaluate_hard_constraints envC7 (liftTT ttX7) =
      evaluate_hard_constraints envC7 (liftTT ttY7) ∧
    evaluate_soft_constraints envC7 (liftTT ttY7) <
      evaluate_soft_constraints envC7 (liftTT ttX7) := by
  have hX : evaluate_soft_constraints envC7 (liftTT ttX7) = 3 / 5 := by
    norm_num [evaluate_soft_constraints, process_lecture_slot_data, dictAppendSlot, dictSet,
      dictGet, dictMem, dictKeys, dictVals, compute_metrics, calculate_idle_time, pySorted,
      sortedInsert, normalize_dict, pyMaxD1, listMean, listVar, calculate_workload_balance,
      calculate_weighted_score, liftTT, liftCell, setAdd, envC7, ttX7, actA1, actA2,
      List.indexOf, List.findIdx, List.findIdx.go, Bool.cond_eq_if, beq_iff_eq,
      show ("s1" : String) ≠ "s2" from by decide,
      show ("s1" : String) ≠ "s3" from by decide,
      show ("s2" : String) ≠ "s3" from by decide]
  have hY : evaluate_soft_constraints envC7 (liftTT ttY7) = 3 / 10 := by
    norm_num [evaluate_soft_constraints, process_lecture_slot_data, dictAppendSlot, dictSet,
      dictGet, dictMem, dictKeys, dictVals, compute_metrics, calculate_idle_time, pySorted,
      sortedInsert, normalize_dict, pyMaxD1, listMean, listVar, calculate_workload_balance,
      calculate_weighted_score, liftTT, liftCell, setAdd, envC7, ttY7, actA1, actA2,
      List.indexOf, List.findIdx, List.findIdx.go, Bool.cond_eq_if, beq_iff_eq,
      show ("s1" : String) ≠ "s2" from by decide,
      show ("s1" : String) ≠ "s3" from by decide,
      show ("s2" : String) ≠ "s3" from by decide,
      show ¬((["s1", "s3"] : List String) = []) from by simp]
  refine ⟨rfl, rfl, ?_⟩
  rw [hX, hY]
  norm_num

/-- Claim C7, amended: after the generation budget the driver returns
the first individual of the final population minimizing the unweighted
sum of the five hard-violation counts (`sum(hard_violations)`); the soft
score plays no role in the choice. -/
theorem C7_find_best_amended (env : Env) (pop : List TT) (hne : pop ≠ [])
    (hok : ∀ t ∈ pop, ∃ v, evaluate_hard_constraints env (liftTT t) = Except.ok v) :
    ∃ best vb, find_best_solution env pop = Except.ok (some best) ∧ best ∈ pop ∧
      evaluate_hard_constraints env (liftTT best) = Except.ok vb ∧
      ∀ t ∈ pop, ∀ vt, evaluate_hard_constraints env (liftTT t) = Except.ok vt →
        violationSum vb ≤ violationSum vt := by
  obtain ⟨r, hr, hinv, hle, hall, hor⟩ :=
    find_best_fold env pop hok ((none : Option TT), (⊤ : WithTop ℤ)) (Or.inl ⟨rfl, rfl⟩)
  rcases pop with _ | ⟨p, ps⟩
  · exact absurd rfl hne
  obtain ⟨vp, hvp⟩ := hok p (by simp)
  have hrtop : r.2 < ⊤ :=
    lt_of_le_of_lt (hall p (by simp) vp hvp) (WithTop.coe_lt_top _)
  rcases hinv with ⟨_, h2⟩ | ⟨b, vb, hb1, hb2, hb3⟩
  · rw [h2] at hrtop
    exact absurd hrtop (lt_irrefl _)
  refine ⟨b, vb, ?_, ?_, hb2, ?_⟩
  · unfold find_best_solution
    rw [hr]
    show Except.ok r.1 = Except.ok (some b)
    rw [hb1]
  · rcases hor with h | ⟨b2, hb2m, hsome⟩
    · rw [h] at hb1
      exact Option.noConfusion hb1
    · rw [hsome] at hb1
      cases Option.some.inj hb1
      exact hb2m
  · intro t ht vt hvt
    have := hall t ht vt hvt
    rw [hb3] at this
    exact_mod_cast this

/-- Witness for `C7_find_best_amended` on the C7 population. -/
theorem C7_find_best_amended_witness :
    (([ttY7, ttX7] : List TT) ≠ [] ∧
      (∀ t ∈ ([ttY7, ttX7] : List TT), ∃ v,
        evaluate_hard_constraints envC7 (liftTT t) = Except.ok v)) ∧
    ∃ best vb, find_best_solution envC7 [ttY7, ttX7] = Except.ok (some best) ∧
      best ∈ ([ttY7, ttX7] : List TT) ∧
      evaluate_hard_constraints envC7 (liftTT best) = Except.ok vb ∧
      ∀ t ∈ ([ttY7, ttX7] : List TT), ∀ vt,
        evaluate_hard_constraints envC7 (liftTT t) = Except.ok vt →
          violationSum vb ≤ violationSum vt :=
  ⟨⟨by simp, fun t ht => by fin_cases ht <;> exact ⟨_, rfl⟩⟩,
   C7_find_best_amended envC7 [ttY7, ttX7] (by simp)
     (fun t ht => by fin_cases ht <;> exact ⟨_, rfl⟩)⟩

/-! # SPEA2 lemmas (claim C10) -/

theorem sortedInsert_perm (le : α → α → Bool) (x : α) (l : List α) :
    (sortedInsert le x l).Perm (x :: l) := by
  induction l with
  | nil => exact List.Perm.refl _
  | cons y ys ih =>
      unfold sortedInsert
      by_cases h : le y x = true
      · rw [if_pos h]
        exact List.Perm.trans (List.Perm.cons y ih) (List.Perm.swap x y ys)
      · rw [if_neg h]

theorem pySorted_perm (le : α → α → Bool) (l : List α) :
    (pySorted le l).Perm l := by
  suffices h : ∀ acc : List α,
      (l.foldl (fun acc x => sortedInsert le x acc) acc).Perm (acc ++ l) by
    simpa using h []
  induction l with
  | nil => intro acc; simp
  | cons x xs ih =>
      intro acc
      rw [List.foldl_cons]
      refine List.Perm.trans (ih (sortedInsert le x acc)) ?_
      have h1 : (sortedInsert le x acc ++ xs).Perm ((x :: acc) ++ xs) :=
        (sortedInsert_perm le x acc).append_right xs
      refine h1.trans ?_
      simpa using List.perm_middle.symm

theorem mem_pySorted (le : α → α → Bool) (l : List α) (x : α) :
    x ∈ pySorted le l ↔ x ∈ l :=
  (pySorted_perm le l).mem_iff

theorem length_pySorted (le : α → α → Bool) (l : List α) :
    (pySorted le l).length = l.length :=
  (pySorted_perm le l).length_eq

theorem sortedInsert_pairwise (le : α → α → Bool)
    (htot : ∀ a b, le a b = true ∨ le b a = true)
    (htrans : ∀ a b c, le a b = true → le b c = true → le a c = true)
    (x : α) (l : List α) (hl : List.Pairwise (fun a b => le a b = true) l) :
    List.Pairwise (fun a b => le a b = true) (sortedInsert le x l) := by
  induction l with
  | nil => simp [sortedInsert]
  | cons y ys ih =>
      rcases List.pairwise_cons.mp hl with ⟨hy, hys⟩
      unfold sortedInsert
      by_cases h : le y x = true
      · rw [if_pos h]
        refine List.pairwise_cons.mpr ⟨?_, ih hys⟩
        intro z hz
        rcases List.mem_cons.mp ((sortedInsert_perm le x ys).mem_iff.mp hz) with hzx | hzys
        · rw [hzx]; exact h
        · exact hy z hzys
      · rw [if_neg h]
        have hxy : le x y = true := by
          rcases htot x y with h1 | h1
          · exact h1
          · exact absurd h1 h
        refine List.pairwise_cons.mpr ⟨?_, hl⟩
        intro z hz
        rcases List.mem_cons.mp hz with hzy | hzys
        · rw [hzy]; exact hxy
        · exact htrans x y z hxy (hy z hzys)

theorem pySorted_pairwise (le : α → α → Bool)
    (htot : ∀ a b, le a b = true ∨ le b a = true)
    (htrans : ∀ a b c, le a b = true → le b c = true → le a c = true)
    (l : List α) :
    List.Pairwise (fun a b => le a b = true) (pySorted le l) := by
  suffices h : ∀ acc : List α, List.Pairwise (fun a b => le a b = true) acc →
      List.Pairwise (fun a b => le a b = true)
        (l.foldl (fun acc x => sortedInsert le x acc) acc) by
    exact h [] (List.Pairwise.nil)
  induction l with
  | nil => intro acc hacc; exact hacc
  | cons x xs ih =>
      intro acc hacc
      rw [List.foldl_cons]
      exact ih _ (sortedInsert_pairwise le htot htrans x acc hacc)

theorem mem_enum_spec (l : List α) (p : ℕ × α) (hp : p ∈ l.enum) (dflt : α) :
    p.1 < l.length ∧ l.getD p.1 dflt = p.2 := by
  obtain ⟨k, hk, hkp⟩ := List.getElem_of_mem hp
  rw [List.getElem_enum] at hkp
  have hk2 : k < l.length := by simpa [List.enum_length] using hk
  subst hkp
  exact ⟨hk2, List.getD_eq_getElem l dflt hk2⟩

theorem fitdist_nonneg (f1 f2 : ℚ × ℚ) : 0 ≤ Spea2.fitdist f1 f2 :=
  Real.sqrt_nonneg _

theorem calculate_density_bounds (fv : List (ℚ × ℚ)) :
    ∀ d ∈ Spea2.calculate_density fv, 0 < d ∧ d ≤ 1 / 2 := by
  intro d hd
  unfold Spea2.calculate_density at hd
  by_cases hfv : fv = []
  · rw [if_pos hfv] at hd
    exact absurd hd (List.not_mem_nil d)
  rw [if_neg hfv] at hd
  rcases List.mem_map.mp hd with ⟨if1, _, hmap⟩
  set k := max 1 (min (Nat.sqrt fv.length) (fv.length - 1)) with hk
  set distances := (fv.enum.filter (fun jf2 => jf2.1 ≠ if1.1)).map
    (fun jf2 => Spea2.fitdist if1.2 jf2.2) with hdist
  set sortedD := pySorted (fun a b => decide (a ≤ b)) distances with hsortedD
  have hs : 0 ≤ sortedD.getD (k - 1) 0 := by
    by_cases hin : k - 1 < sortedD.length
    · rw [List.getD_eq_getElem _ _ hin]
      have hmem : sortedD[k - 1] ∈ sortedD := List.getElem_mem hin
      have hmem2 : sortedD[k - 1] ∈ distances :=
        (mem_pySorted _ distances _).mp hmem
      rcases List.mem_map.mp hmem2 with ⟨jf2, _, hjf⟩
      rw [← hjf]
      exact fitdist_nonneg _ _
    · rw [List.getD_eq_default _ _ (by omega)]
  have hpos : (0 : ℝ) < sortedD.getD (k - 1) 0 + 2 := by linarith
  constructor
  · rw [← hmap]
    positivity
  · rw [← hmap]
    rw [div_le_div_iff₀ hpos (by norm_num)]
    linarith

theorem getD_enum_map (f : ℕ × α → β) (l : List α) (i : ℕ) (d : β) (d2 : α)
    (hi : i < l.length) : (l.enum.map f).getD i d = f (i, l.getD i d2) := by
  rw [List.getD_eq_getElem _ _ (by simp [List.enum_length, hi]), List.getElem_map,
      List.getElem_enum, List.getD_eq_getElem l d2 hi]

theorem length_calculate_raw_fitness (fv : List (ℚ × ℚ)) (s : List ℕ) :
    (Spea2.calculate_raw_fitness fv s).length = fv.length := by
  simp [Spea2.calculate_raw_fitness, List.enum_length]

theorem length_calculate_density (fv : List (ℚ × ℚ)) :
    (Spea2.calculate_density fv).length = fv.length := by
  unfold Spea2.calculate_density
  split
  · simp_all
  · simp [List.enum_length]

theorem length_final_fitness (fv : List (ℚ × ℚ)) :
    (Spea2.final_fitness fv).length = fv.length := by
  simp [Spea2.final_fitness, List.length_zipWith, length_calculate_raw_fitness,
    length_calculate_density]

theorem final_fitness_getD (fv : List (ℚ × ℚ)) (i : ℕ) (hi : i < fv.length) :
    (Spea2.final_fitness fv).getD i 0 =
      (((Spea2.calculate_raw_fitness fv (Spea2.calculate_dominance_strength fv)).getD i 0 : ℕ) : ℝ) +
        (Spea2.calculate_density fv).getD i 0 := by
  have hif : i < (Spea2.final_fitness fv).length := by
    rw [length_final_fitness]; exact hi
  have hir : i < (Spea2.calculate_raw_fitness fv (Spea2.calculate_dominance_strength fv)).length := by
    rw [length_calculate_raw_fitness]; exact hi
  have hid : i < (Spea2.calculate_density fv).length := by
    rw [length_calculate_density]; exact hi
  rw [List.getD_eq_getElem _ _ hif, List.getD_eq_getElem _ _ hir,
      List.getD_eq_getElem _ _ hid]
  unfold Spea2.final_fitness
  rw [List.getElem_zipWith]

theorem final_fitness_pos (fv : List (ℚ × ℚ)) :
    ∀ f ∈ Spea2.final_fitness fv, 0 < f := by
  intro f hf
  obtain ⟨i, hi, hfi⟩ := List.mem_iff_getElem.mp hf
  have hi2 : i < fv.length := by rw [← length_final_fitness fv]; exact hi
  have := final_fitness_getD fv i hi2
  rw [List.getD_eq_getElem _ _ hi] at this
  rw [← hfi, this]
  have hid : i < (Spea2.calculate_density fv).length := by
    rw [length_calculate_density]; exact hi2
  have hmem : (Spea2.calculate_density fv).getD i 0 ∈ Spea2.calculate_density fv := by
    rw [List.getD_eq_getElem _ _ hid]
    exact List.getElem_mem hid
  have hdp := (calculate_density_bounds fv _ hmem).1
  positivity

theorem combined_third_mem {γ : Type} (A : List (γ × (ℚ × ℚ))) (B : List ℝ)
    (c : γ × (ℚ × ℚ) × ℝ)
    (hc : c ∈ List.zipWith (fun (pf : γ × (ℚ × ℚ)) f => (pf.1, pf.2, f)) A B) :
    c.2.2 ∈ B := by
  induction A generalizing B with
  | nil => simp at hc
  | cons a as ih =>
      cases B with
      | nil => simp at hc
      | cons b bs =>
          rw [List.zipWith_cons_cons] at hc
          rcases List.mem_cons.mp hc with h | h
          · rw [h]; exact List.mem_cons_self b bs
          · exact List.mem_cons_of_mem b (ih bs h)

theorem combined_sorted_third_mem {γ : Type} (population : List γ)
    (fv : List (ℚ × ℚ)) (c : γ × (ℚ × ℚ) × ℝ)
    (hc : c ∈ Spea2.combined_sorted population fv) :
    c.2.2 ∈ Spea2.final_fitness fv := by
  unfold Spea2.combined_sorted at hc
  exact combined_third_mem _ _ c ((mem_pySorted _ _ _).mp hc)

theorem combined_sorted_third_pos {γ : Type} (population : List γ)
    (fv : List (ℚ × ℚ)) (c : γ × (ℚ × ℚ) × ℝ)
    (hc : c ∈ Spea2.combined_sorted population fv) : 0 < c.2.2 :=
  final_fitness_pos fv _ (combined_sorted_third_mem population fv c hc)

theorem archive0_eq_nil {γ : Type} (population : List γ) (fv : List (ℚ × ℚ)) :
    (Spea2.combined_sorted population fv).filter (fun c => decide (c.2.2 = 0)) = [] := by
  rw [List.filter_eq_nil_iff]
  intro c hc
  have := combined_sorted_third_pos population fv c hc
  simp only [decide_eq_true_eq]
  intro h0
  rw [h0] at this
  exact lt_irrefl 0 this

theorem filter_pos_eq_self {γ : Type} (population : List γ) (fv : List (ℚ × ℚ)) :
    (Spea2.combined_sorted population fv).filter (fun c => decide (0 < c.2.2)) =
      Spea2.combined_sorted population fv := by
  rw [List.filter_eq_self]
  intro c hc
  simp only [decide_eq_true_eq]
  exact combined_sorted_third_pos population fv c hc

theorem environmental_selection_eq_take {γ : Type} (population : List γ)
    (fv : List (ℚ × ℚ)) (asize : ℕ) :
    Spea2.environmental_selection population fv asize =
      (((Spea2.combined_sorted population fv).take asize).map (fun c => c.1),
       ((Spea2.combined_sorted population fv).take asize).map (fun c => c.2.1)) := by
  unfold Spea2.environmental_selection
  dsimp only
  rw [archive0_eq_nil population fv, filter_pos_eq_self population fv]
  by_cases ha : 0 < asize
  · rw [if_pos (by simpa using ha)]
    simp
  · have ha0 : asize = 0 := by omega
    subst ha0
    simp

theorem raw_fitness_eq_zero (fv : List (ℚ × ℚ)) (s : List ℕ) (i : ℕ)
    (hi : i < fv.length)
    (hnd : ∀ j, j < fv.length → j ≠ i →
      Spea2.dominates (fv.getD j (0, 0)) (fv.getD i (0, 0)) = false) :
    (Spea2.calculate_raw_fitness fv s).getD i 0 = 0 := by
  unfold Spea2.calculate_raw_fitness
  rw [getD_enum_map _ fv i 0 (0, 0) hi]
  have hfil : fv.enum.filter
      (fun jf2 => decide ((i, fv.getD i (0, 0)).1 ≠ jf2.1 ∧
        Spea2.dominates jf2.2 (i, fv.getD i (0, 0)).2 = true)) = [] := by
    rw [List.filter_eq_nil_iff]
    intro jf2 hjf2
    obtain ⟨hlt, hgd⟩ := mem_enum_spec fv jf2 hjf2 (0, 0)
    simp only [decide_eq_true_eq, not_and]
    intro hne hdom
    have := hnd jf2.1 hlt (fun hji => hne (hji ▸ rfl))
    rw [hgd] at this
    rw [this] at hdom
    exact Bool.false_ne_true hdom
  rw [hfil]
  rfl

theorem raw_fitness_ge_one (fv : List (ℚ × ℚ)) (i j : ℕ)
    (hi : i < fv.length) (hj : j < fv.length) (hne : j ≠ i)
    (hdom : Spea2.dominates (fv.getD j (0, 0)) (fv.getD i (0, 0)) = true) :
    1 ≤ (Spea2.calculate_raw_fitness fv (Spea2.calculate_dominance_strength fv)).getD i 0 := by
  unfold Spea2.calculate_raw_fitness
  rw [getD_enum_map _ fv i 0 (0, 0) hi]
  have hjl : j < fv.enum.length := by simpa [List.enum_length] using hj
  have hjmem : (j, fv.getD j (0, 0)) ∈ fv.enum := by
    have h1 : fv.enum[j] = (j, fv[j]) := List.getElem_enum fv j hjl
    have h2 : fv.enum[j] ∈ fv.enum := List.getElem_mem hjl
    rw [h1, ← List.getD_eq_getElem fv (0, 0) hj] at h2
    exact h2
  have hjfil : (j, fv.getD j (0, 0)) ∈ fv.enum.filter
      (fun jf2 => decide ((i, fv.getD i (0, 0)).1 ≠ jf2.1 ∧
        Spea2.dominates jf2.2 (i, fv.getD i (0, 0)).2 = true)) := by
    rw [List.mem_filter]
    refine ⟨hjmem, ?_⟩
    simp only [decide_eq_true_eq]
    exact ⟨fun hij => hne (hij.symm), hdom⟩
  have hvmem : (Spea2.calculate_dominance_strength fv).getD j 0 ∈
      ((fv.enum.filter
        (fun jf2 => decide ((i, fv.getD i (0, 0)).1 ≠ jf2.1 ∧
          Spea2.dominates jf2.2 (i, fv.getD i (0, 0)).2 = true))).map
        (fun jf2 => (Spea2.calculate_dominance_strength fv).getD jf2.1 0)) :=
    List.mem_map_of_mem _ hjfil
  have hsum := List.single_le_sum (fun x _ => Nat.zero_le x) _ hvmem
  have hstr : 1 ≤ (Spea2.calculate_dominance_strength fv).getD j 0 := by
    unfold Spea2.calculate_dominance_strength
    rw [getD_enum_map _ fv j 0 (0, 0) hj]
    have hil : i < fv.enum.length := by simpa [List.enum_length] using hi
    have himem : (i, fv.getD i (0, 0)) ∈ fv.enum := by
      have h1 : fv.enum[i] = (i, fv[i]) := List.getElem_enum fv i hil
      have h2 : fv.enum[i] ∈ fv.enum := List.getElem_mem hil
      rw [h1, ← List.getD_eq_getElem fv (0, 0) hi] at h2
      exact h2
    have hifil : (i, fv.getD i (0, 0)) ∈ fv.enum.filter
        (fun kf => decide ((j, fv.getD j (0, 0)).1 ≠ kf.1 ∧
          Spea2.dominates (j, fv.getD j (0, 0)).2 kf.2 = true)) := by
      rw [List.mem_filter]
      refine ⟨himem, ?_⟩
      simp only [decide_eq_true_eq]
      exact ⟨hne, hdom⟩
    exact List.length_pos_of_mem hifil
  exact le_trans hstr hsum

theorem final_lt_of_nondominated (fv : List (ℚ × ℚ)) (i j : ℕ)
    (hi : i < fv.length) (hj : j < fv.length)
    (hndi : ∀ l, l < fv.length → l ≠ i →
      Spea2.dominates (fv.getD l (0, 0)) (fv.getD i (0, 0)) = false)
    (hdomj : ∃ l, l < fv.length ∧ l ≠ j ∧
      Spea2.dominates (fv.getD l (0, 0)) (fv.getD j (0, 0)) = true) :
    (Spea2.final_fitness fv).getD i 0 < (Spea2.final_fitness fv).getD j 0 := by
  rw [final_fitness_getD fv i hi, final_fitness_getD fv j hj]
  have hri := raw_fitness_eq_zero fv (Spea2.calculate_dominance_strength fv) i hi hndi
  obtain ⟨l, hl, hlj, hldom⟩ := hdomj
  have hrj := raw_fitness_ge_one fv j l hj hl hlj hldom
  have hdi : (Spea2.calculate_density fv).getD i 0 ∈ Spea2.calculate_density fv := by
    rw [List.getD_eq_getElem _ _ (by rw [length_calculate_density]; exact hi)]
    exact List.getElem_mem _
  have hdj : (Spea2.calculate_density fv).getD j 0 ∈ Spea2.calculate_density fv := by
    rw [List.getD_eq_getElem _ _ (by rw [length_calculate_density]; exact hj)]
    exact List.getElem_mem _
  have hbi := calculate_density_bounds fv _ hdi
  have hbj := calculate_density_bounds fv _ hdj
  have hrjr : (1 : ℝ) ≤ ((Spea2.calculate_raw_fitness fv
      (Spea2.calculate_dominance_strength fv)).getD j 0 : ℝ) := by
    exact_mod_cast hrj
  rw [hri]
  push_cast
  linarith [hbi.1, hbi.2, hbj.1]

/-! # Claim C10: SPEA2 environmental selection -/

/-- Claim C10 (SPEA2 density is in `(0, 1/2]`, final fitness is
positive, the `final_fitness == 0` admission branch is dead, the new
archive is exactly the `archive_size` lowest-final-fitness members of
the combined set under the stable ascending sort, and non-dominated
members — raw fitness `0` — come strictly before every dominated member
— raw fitness `≥ 1`). -/
theorem C10_spea2_theorem {γ : Type} (population : List γ)
    (fv : List (ℚ × ℚ)) (asize : ℕ) (h2 : 2 ≤ fv.length) :
    (∀ d ∈ Spea2.calculate_density fv, 0 < d ∧ d ≤ 1 / 2) ∧
    (∀ f ∈ Spea2.final_fitness fv, 0 < f) ∧
    ((Spea2.combined_sorted population fv).filter (fun c => decide (c.2.2 = 0)) = []) ∧
    (Spea2.environmental_selection population fv asize =
      (((Spea2.combined_sorted population fv).take asize).map (fun c => c.1),
       ((Spea2.combined_sorted population fv).take asize).map (fun c => c.2.1))) ∧
    List.Pairwise (fun a b => a.2.2 ≤ b.2.2) (Spea2.combined_sorted population fv) ∧
    (Spea2.combined_sorted population fv).Perm
      (List.zipWith (fun (pf : γ × (ℚ × ℚ)) f => (pf.1, pf.2, f))
        (population.zip fv) (Spea2.final_fitness fv)) ∧
    (∀ i j, i < fv.length → j < fv.length →
      (∀ l, l < fv.length → l ≠ i →
        Spea2.dominates (fv.getD l (0, 0)) (fv.getD i (0, 0)) = false) →
      (∃ l, l < fv.length ∧ l ≠ j ∧
        Spea2.dominates (fv.getD l (0, 0)) (fv.getD j (0, 0)) = true) →
      (Spea2.final_fitness fv).getD i 0 < (Spea2.final_fitness fv).getD j 0) := by
  refine ⟨calculate_density_bounds fv, final_fitness_pos fv,
    archive0_eq_nil population fv, environmental_selection_eq_take population fv asize,
    ?_, ?_, fun i j hi hj => final_lt_of_nondominated fv i j hi hj⟩
  · have hp := pySorted_pairwise (fun (a b : γ × (ℚ × ℚ) × ℝ) => decide (a.2.2 ≤ b.2.2))
      (fun a b => by
        rcases le_total a.2.2 b.2.2 with h | h
        · exact Or.inl (decide_eq_true h)
        · exact Or.inr (decide_eq_true h))
      (fun a b c hab hbc =>
        decide_eq_true (le_trans (of_decide_eq_true hab) (of_decide_eq_true hbc)))
      (List.zipWith (fun (pf : γ × (ℚ × ℚ)) f => (pf.1, pf.2, f))
        (population.zip fv) (Spea2.final_fitness fv))
    exact hp.imp (fun h => of_decide_eq_true h)
  · exact pySorted_perm _ _

/-- Witness for `C10_spea2_theorem` on a combined set of two individuals
where the first dominates the second. -/
theorem C10_spea2_witness :
    (2 ≤ ([((0 : ℚ), (1 : ℚ)), ((1 : ℚ), (0 : ℚ))] : List (ℚ × ℚ)).length) ∧
    Spea2.environmental_selection [(10 : ℕ), 20]
        [((0 : ℚ), (1 : ℚ)), ((1 : ℚ), (0 : ℚ))] 1 =
      (((Spea2.combined_sorted [(10 : ℕ), 20]
          [((0 : ℚ), (1 : ℚ)), ((1 : ℚ), (0 : ℚ))]).take 1).map (fun c => c.1),
       ((Spea2.combined_sorted [(10 : ℕ), 20]
          [((0 : ℚ), (1 : ℚ)), ((1 : ℚ), (0 : ℚ))]).take 1).map (fun c => c.2.1)) :=
  ⟨by decide,
   (C10_spea2_theorem [(10 : ℕ), 20] [((0 : ℚ), (1 : ℚ)), ((1 : ℚ), (0 : ℚ))] 1
     (by decide)).2.2.2.1⟩

/-! # Dict-update lemmas (claims C4, C5) -/

theorem dictGet_cons (e : String × α) (es : List (String × α)) (k2 : String) :
    dictGet (e :: es) k2 = if e.1 == k2 then some e.2 else dictGet es k2 := by
  unfold dictGet
  rw [List.find?_cons]
  cases h : (e.1 == k2) <;> simp [h]

theorem dictMem_cons (e : String × α) (es : List (String × α)) (k2 : String) :
    dictMem (e :: es) k2 = ((e.1 == k2) || dictMem es k2) := by
  simp [dictMem]

theorem dictGet_map_ne (d : List (String × α)) (k k2 : String) (v : α)
    (hne : k2 ≠ k) :
    dictGet (d.map (fun e => if e.1 == k then (k, v) else e)) k2 = dictGet d k2 := by
  induction d with
  | nil => rfl
  | cons e es ih =>
      rw [List.map_cons, dictGet_cons, dictGet_cons]
      by_cases he : e.1 = k
      · have hb : (e.1 == k) = true := beq_iff_eq.mpr he
        have h2 : (e.1 == k2) = false := by
          rw [beq_eq_false_iff_ne, he]
          exact fun h => hne h.symm
        have h3 : ((k : String) == k2) = false := by
          rw [beq_eq_false_iff_ne]
          exact fun h => hne h.symm
        rw [hb, if_pos rfl]
        rw [show (((k, v) : String × α).1 == k2) = false from h3, if_neg (by simp),
            h2, if_neg (by simp)]
        exact ih
      · have hb : (e.1 == k) = false := beq_eq_false_iff_ne.mpr he
        have hrepl : (if (e.1 == k) = true then (k, v) else e) = e := by
          rw [hb]
          simp
        rw [hrepl, ih]

theorem dictGet_map_self (d : List (String × α)) (k : String) (v : α)
    (hmem : dictMem d k = true) :
    dictGet (d.map (fun e => if e.1 == k then (k, v) else e)) k = some v := by
  induction d with
  | nil => exact absurd hmem (by simp [dictMem])
  | cons e es ih =>
      rw [List.map_cons, dictGet_cons]
      by_cases he : e.1 = k
      · have hb : (e.1 == k) = true := beq_iff_eq.mpr he
        rw [hb, if_pos rfl]
        rw [show (((k, v) : String × α).1 == k) = true from beq_iff_eq.mpr rfl,
            if_pos rfl]
      · have hb : (e.1 == k) = false := beq_eq_false_iff_ne.mpr he
        have hmem2 : dictMem es k = true := by
          rw [dictMem_cons, hb, Bool.false_or] at hmem
          exact hmem
        have hrepl : (if (e.1 == k) = true then (k, v) else e) = e := by
          rw [hb]
          simp
        rw [hrepl, hb, if_neg (by simp)]
        exact ih hmem2

theorem find?_eq_none_of_not_mem (d : List (String × α)) (k : String)
    (hmem : dictMem d k = false) :
    d.find? (fun e => e.1 == k) = none := by
  rw [List.find?_eq_none]
  intro x hx
  intro hxk
  unfold dictMem at hmem
  rw [← Bool.not_eq_true, List.any_eq_true] at hmem
  exact hmem ⟨x, hx, hxk⟩

theorem dictGet_dictSet (d : List (String × α)) (k k2 : String) (v : α) :
    dictGet (dictSet d k v) k2 = if k2 = k then some v else dictGet d k2 := by
  unfold dictSet
  by_cases hmem : dictMem d k = true
  · rw [if_pos hmem]
    by_cases hk : k2 = k
    · rw [if_pos hk, hk]
      exact dictGet_map_self d k v hmem
    · rw [if_neg hk]
      exact dictGet_map_ne d k k2 v hk
  · rw [if_neg hmem]
    unfold dictGet
    rw [List.find?_append]
    by_cases hk : k2 = k
    · subst hk
      rw [find?_eq_none_of_not_mem d k2 (by simpa using hmem), if_pos rfl]
      simp [List.find?]
    · rw [if_neg hk]
      have h3 : (((k, v) : String × α).1 == k2) = false :=
        beq_eq_false_iff_ne.mpr (fun h => hk (h.symm))
      have h4 : List.find? (fun e => e.1 == k2) [(k, v)] = none := by
        simp [List.find?, h3]
      rw [h4, Option.or_none]

theorem dictMem_dictSet (d : List (String × α)) (k k2 : String) (v : α) :
    dictMem (dictSet d k v) k2 = ((k2 == k) || dictMem d k2) := by
  have h1 : ∀ d2 : List (String × α), dictMem d2 k2 = (dictGet d2 k2).isSome := by
    intro d2
    unfold dictMem dictGet
    cases hf : d2.find? (fun e => e.1 == k2) with
    | some x =>
        rcases List.find?_isSome.mp (by rw [hf]; rfl) with ⟨y, hy, hyk⟩
        exact List.any_eq_true.mpr ⟨y, hy, hyk⟩
    | none =>
        show (d2.any fun e => e.1 == k2) = false
        rw [← Bool.not_eq_true, List.any_eq_true]
        rw [List.find?_eq_none] at hf
        intro ⟨x, hx, hxk⟩
        exact hf x hx hxk
  rw [h1, h1, dictGet_dictSet]
  by_cases hk : k2 = k
  · simp [hk]
  · simp [hk, beq_eq_false_iff_ne.mpr hk]

theorem dictKeys_dictSet_of_mem (d : List (String × α)) (k : String) (v : α)
    (hmem : dictMem d k = true) : dictKeys (dictSet d k v) = dictKeys d := by
  unfold dictSet
  rw [if_pos hmem]
  unfold dictKeys
  rw [List.map_map]
  apply List.map_congr_left
  intro e _
  by_cases he : e.1 = k
  · simp [beq_iff_eq.mpr he, he]
  · simp [he]

theorem nodup_keys_dictSet (d : List (String × α)) (k : String) (v : α)
    (hnd : (dictKeys d).Nodup) : (dictKeys (dictSet d k v)).Nodup := by
  by_cases hmem : dictMem d k = true
  · rw [dictKeys_dictSet_of_mem d k v hmem]
    exact hnd
  · unfold dictSet
    rw [if_neg hmem]
    unfold dictKeys
    rw [List.map_append]
    simp only [List.map_cons, List.map_nil]
    rw [List.nodup_append]
    refine ⟨hnd, List.nodup_singleton k, ?_⟩
    intro x hx hk
    rcases List.mem_singleton.mp hk with rfl
    unfold dictMem at hmem
    rw [List.any_eq_true] at hmem
    rcases List.mem_map.mp hx with ⟨e, he, hek⟩
    exact hmem ⟨e, he, by rw [beq_iff_eq]; exact hek⟩

theorem complete_eq_true_iff (env : Env) (t : TT) :
    NsgaII.complete env t = true ↔
      ∀ s ∈ env.slots, ∃ sd, dictGet t s = some sd ∧
        ∀ re ∈ env.spaces, dictMem sd re.1 = true := by
  unfold NsgaII.complete
  rw [List.all_eq_true]
  constructor
  · intro h s hs
    have h2 := h s hs
    cases hget : dictGet t s with
    | none =>
        rw [hget] at h2
        exact absurd h2 (by simp)
    | some sd =>
        rw [hget] at h2
        exact ⟨sd, rfl, fun re hre => List.all_eq_true.mp h2 re hre⟩
  · intro h s hs
    rcases h s hs with ⟨sd, hget, hall⟩
    rw [hget]
    exact List.all_eq_true.mpr hall

theorem complete_dictSet (env : Env) (t : TT) (s : String)
    (sd : List (String × Option Activity))
    (hsd : s ∈ env.slots → ∀ re ∈ env.spaces, dictMem sd re.1 = true)
    (h : NsgaII.complete env t = true) :
    NsgaII.complete env (dictSet t s sd) = true := by
  rw [complete_eq_true_iff] at h ⊢
  intro s2 hs2
  by_cases he : s2 = s
  · exact ⟨sd, by rw [dictGet_dictSet, if_pos he], hsd (he ▸ hs2)⟩
  · rcases h s2 hs2 with ⟨sd2, hget, hall⟩
    exact ⟨sd2, by rw [dictGet_dictSet, if_neg he, hget], hall⟩

theorem complete_tset (env : Env) (t : TT) (s r : String) (v : Option Activity)
    (h : NsgaII.complete env t = true) :
    NsgaII.complete env (NsgaII.tset t s r v) = true := by
  unfold NsgaII.tset
  refine complete_dictSet env t s _ ?_ h
  intro hs re hre
  rcases (complete_eq_true_iff env t).mp h s hs with ⟨sd, hget, hall⟩
  rw [hget, Option.getD_some, dictMem_dictSet, hall re hre, Bool.or_true]

theorem complete_random_mutation (p1 p2 r1 r2 : ℕ) (env : Env) (t : TT)
    (h : NsgaII.complete env t = true) :
    NsgaII.complete env (NsgaII.random_mutation p1 p2 r1 r2 t) = true := by
  unfold NsgaII.random_mutation
  dsimp only
  split
  · exact h
  · exact complete_tset env _ _ _ _ (complete_tset env t _ _ _ h)

theorem complete_try_move (env : Env) (act : Activity) (pick : ℕ) (t : TT)
    (fs fr : String) (l : List String) (t2 : TT)
    (h : NsgaII.complete env t = true)
    (hres : NsgaII.try_move env act pick t fs fr l = some t2) :
    NsgaII.complete env t2 = true := by
  induction l with
  | nil => exact absurd hres (by simp [NsgaII.try_move])
  | cons s rest ih =>
      unfold NsgaII.try_move at hres
      split at hres
      · split at hres
        · exact ih hres
        · exact Option.some.inj hres ▸
            complete_tset env _ _ _ _ (complete_tset env t _ _ _ h)
      · exact ih hres

theorem complete_repair_mutation (env : Env) (rng : NsgaII.RepairRng) (t : TT)
    (h : NsgaII.complete env t = true) :
    NsgaII.complete env (NsgaII.repair_mutation env rng t) = true := by
  unfold NsgaII.repair_mutation
  split
  · exact complete_random_mutation _ _ _ _ env t h
  · dsimp only
    split
    · exact complete_try_move env _ _ t _ _ _ _ h (by assumption)
    · split
      · exact h
      · split
        · exact h
        · exact complete_tset env _ _ _ _ (complete_tset env t _ _ _ h)

theorem complete_mutate (env : Env) (useRepair : Bool) (rng : NsgaII.RepairRng)
    (t : TT) (h : NsgaII.complete env t = true) :
    NsgaII.complete env (NsgaII.mutate env useRepair rng t) = true := by
  unfold NsgaII.mutate
  split
  · exact complete_repair_mutation env rng t h
  · exact complete_random_mutation _ _ _ _ env t h

theorem complete_foldl_dictSet (env : Env)
    (g : String → List (String × Option Activity)) (L : List String) (t : TT)
    (hg : ∀ s ∈ env.slots, ∀ re ∈ env.spaces, dictMem (g s) re.1 = true)
    (h : NsgaII.complete env t = true) :
    NsgaII.complete env (L.foldl (fun c s => dictSet c s (g s)) t) = true := by
  induction L generalizing t with
  | nil => exact h
  | cons s rest ih =>
      rw [List.foldl_cons]
      exact ih _ (complete_dictSet env t s (g s) (fun hs => hg s hs) h)

theorem complete_crossover (cut : ℕ) (env : Env) (p1 p2 : TT)
    (h1 : NsgaII.complete env p1 = true) (h2 : NsgaII.complete env p2 = true) :
    NsgaII.complete env (NsgaII.crossover cut p1 p2).1 = true ∧
    NsgaII.complete env (NsgaII.crossover cut p1 p2).2 = true := by
  unfold NsgaII.crossover
  dsimp only
  constructor
  · refine complete_foldl_dictSet env _ _ p1 ?_ h1
    intro s hs re hre
    rcases (complete_eq_true_iff env p2).mp h2 s hs with ⟨sd, hget, hall⟩
    rw [hget, Option.getD_some]
    exact hall re hre
  · refine complete_foldl_dictSet env _ _ p2 ?_ h2
    intro s hs re hre
    rcases (complete_eq_true_iff env p1).mp h1 s hs with ⟨sd, hget, hall⟩
    rw [hget, Option.getD_some]
    exact hall re hre

theorem dictGet_tset_ne (t : TT) (s r : String) (v : Option Activity)
    (s2 : String) (h : s2 ≠ s) :
    dictGet (NsgaII.tset t s r v) s2 = dictGet t s2 := by
  unfold NsgaII.tset
  rw [dictGet_dictSet, if_neg h]

theorem dictGet_tset_self (t : TT) (s r : String) (v : Option Activity) :
    dictGet (NsgaII.tset t s r v) s =
      some (dictSet ((dictGet t s).getD []) r v) := by
  unfold NsgaII.tset
  rw [dictGet_dictSet, if_pos rfl]

theorem dictMem_tset_self (t : TT) (s r : String) (v : Option Activity)
    (r2 : String) :
    dictMem ((dictGet (NsgaII.tset t s r v) s).getD []) r2 =
      ((r2 == r) || dictMem ((dictGet t s).getD []) r2) := by
  rw [dictGet_tset_self, Option.getD_some, dictMem_dictSet]

theorem fillSlot_spec (s : String) (rl : List (String × Space)) (t : TT)
    (step : TT → (String × Space) → TT)
    (hstep : step = fun t re =>
      if dictMem ((dictGet t s).getD []) re.1 then t
      else NsgaII.tset t s re.1 none) :
    (∀ s2, s2 ≠ s → dictGet (rl.foldl step t) s2 = dictGet t s2) ∧
    ((dictGet t s).isSome = true → (dictGet (rl.foldl step t) s).isSome = true) ∧
    (∀ r, dictMem ((dictGet t s).getD []) r = true →
       dictMem ((dictGet (rl.foldl step t) s).getD []) r = true) ∧
    (∀ re ∈ rl, dictMem ((dictGet (rl.foldl step t) s).getD []) re.1 = true) := by
  induction rl generalizing t with
  | nil => exact ⟨fun _ _ => rfl, fun h => h, fun _ h => h, by simp⟩
  | cons re rest ih =>
      have f_ne : ∀ s2, s2 ≠ s → dictGet (step t re) s2 = dictGet t s2 := by
        intro s2 hs2
        rw [hstep]
        dsimp only
        split
        · rfl
        · exact dictGet_tset_ne t s re.1 none s2 hs2
      have f_some : (dictGet t s).isSome = true →
          (dictGet (step t re) s).isSome = true := by
        intro h
        rw [hstep]
        dsimp only
        split
        · exact h
        · rw [dictGet_tset_self]
          rfl
      have f_mono : ∀ r, dictMem ((dictGet t s).getD []) r = true →
          dictMem ((dictGet (step t re) s).getD []) r = true := by
        intro r h
        rw [hstep]
        dsimp only
        split
        · exact h
        · rw [dictMem_tset_self, h, Bool.or_true]
      have f_self : dictMem ((dictGet (step t re) s).getD []) re.1 = true := by
        rw [hstep]
        dsimp only
        split
        · assumption
        · rw [dictMem_tset_self]
          simp
      rw [List.foldl_cons]
      rcases ih (step t re) with ⟨ihA, ihB, ihC, ihD⟩
      refine ⟨?_, ?_, ?_, ?_⟩
      · intro s2 hs2
        rw [ihA s2 hs2, f_ne s2 hs2]
      · intro h
        exact ihB (f_some h)
      · intro r h
        exact ihC r (f_mono r h)
      · intro re2 hre2
        rcases List.mem_cons.mp hre2 with rfl | hmem
        · exact ihC re2.1 f_self
        · exact ihD re2 hmem

theorem fillFold_spec (env : Env) (L : List String) (t : TT)
    (outer : TT → String → TT)
    (houter : outer = fun t s =>
      env.spaces.foldl
        (fun t re =>
          if dictMem ((dictGet t s).getD []) re.1 then t
          else NsgaII.tset t s re.1 none)
        t) :
    (∀ s, (dictGet t s).isSome = true →
       (dictGet (L.foldl outer t) s).isSome = true) ∧
    (∀ s, (∃ sd, dictGet t s = some sd ∧
            ∀ re ∈ env.spaces, dictMem sd re.1 = true) →
       ∃ sd, dictGet (L.foldl outer t) s = some sd ∧
         ∀ re ∈ env.spaces, dictMem sd re.1 = true) ∧
    (∀ s ∈ L, (dictGet t s).isSome = true →
       ∃ sd, dictGet (L.foldl outer t) s = some sd ∧
         ∀ re ∈ env.spaces, dictMem sd re.1 = true) := by
  induction L generalizing t with
  | nil => exact ⟨fun _ h => h, fun _ h => h, by simp⟩
  | cons s0 rest ih =>
      rcases fillSlot_spec s0 env.spaces t _ rfl with ⟨fA, fB, fC, fD⟩
      have houter0 : outer t s0 = env.spaces.foldl
          (fun t re =>
            if dictMem ((dictGet t s0).getD []) re.1 then t
            else NsgaII.tset t s0 re.1 none)
          t := by rw [houter]
      rw [List.foldl_cons]
      rcases ih (outer t s0) with ⟨ihA, ihB, ihC⟩
      have stepSome : ∀ s, (dictGet t s).isSome = true →
          (dictGet (outer t s0) s).isSome = true := by
        intro s h
        by_cases hs : s = s0
        · subst hs
          rw [houter0]
          exact fB h
        · rw [houter0, fA s hs]
          exact h
      have stepGood : ∀ s, (∃ sd, dictGet t s = some sd ∧
            ∀ re ∈ env.spaces, dictMem sd re.1 = true) →
          ∃ sd, dictGet (outer t s0) s = some sd ∧
            ∀ re ∈ env.spaces, dictMem sd re.1 = true := by
        intro s hgood
        rcases hgood with ⟨sd, hget, hall⟩
        by_cases hs : s = s0
        · subst hs
          have hsome : (dictGet (outer t s) s).isSome = true := by
            rw [houter0]
            exact fB (by rw [hget]; rfl)
          rcases Option.isSome_iff_exists.mp hsome with ⟨sd1, hget1⟩
          refine ⟨sd1, hget1, ?_⟩
          intro re hre
          have h2 : dictMem ((dictGet (outer t s) s).getD []) re.1 = true := by
            rw [houter0]
            refine fC re.1 ?_
            rw [hget, Option.getD_some]
            exact hall re hre
          rw [hget1, Option.getD_some] at h2
          exact h2
        · refine ⟨sd, ?_, hall⟩
          rw [houter0, fA s hs]
          exact hget
      refine ⟨?_, ?_, ?_⟩
      · intro s h
        exact ihA s (stepSome s h)
      · intro s hgood
        exact ihB s (stepGood s hgood)
      · intro s hsL h
        rcases List.mem_cons.mp hsL with rfl | hmem
        · refine ihB s ?_
          have hsome : (dictGet (outer t s) s).isSome = true := stepSome s h
          rcases Option.isSome_iff_exists.mp hsome with ⟨sd1, hget1⟩
          refine ⟨sd1, hget1, ?_⟩
          intro re hre
          have h2 : dictMem ((dictGet (outer t s) s).getD []) re.1 = true := by
            rw [houter0]
            exact fD re hre
          rw [hget1, Option.getD_some] at h2
          exact h2
        · exact ihC s hmem (stepSome s h)

theorem fill_missing_complete (env : Env) (t : TT)
    (hent : ∀ s ∈ env.slots, (dictGet t s).isSome = true) :
    NsgaII.complete env (NsgaII.fill_missing env t) = true := by
  rw [complete_eq_true_iff]
  intro s hs
  have h := (fillFold_spec env env.slots t _ rfl).2.2 s hs (hent s hs)
  unfold NsgaII.fill_missing
  exact h

theorem entrySome_dictSet (t : TT) (k : String)
    (v : List (String × Option Activity)) (s : String)
    (h : (dictGet t s).isSome = true) :
    (dictGet (dictSet t k v) s).isSome = true := by
  rw [dictGet_dictSet]
  by_cases hs : s = k
  · rw [if_pos hs]
    rfl
  · rw [if_neg hs]
    exact h

theorem entrySome_tset (t : TT) (s2 r : String) (v : Option Activity) (s : String)
    (h : (dictGet t s).isSome = true) :
    (dictGet (NsgaII.tset t s2 r v) s).isSome = true := by
  unfold NsgaII.tset
  exact entrySome_dictSet t s2 _ s h

theorem entrySome_place_first (env : Env) (act : Activity) (pick : ℕ)
    (l : List String) (t t2 : TT) (s : String)
    (hres : NsgaII.place_first env act pick t l = some t2)
    (h : (dictGet t s).isSome = true) : (dictGet t2 s).isSome = true := by
  induction l with
  | nil => exact absurd hres (by simp [NsgaII.place_first])
  | cons slot rest ih =>
      unfold NsgaII.place_first at hres
      split at hres
      · exact ih hres
      · exact Option.some.inj hres ▸ entrySome_tset t slot _ _ s h

theorem entrySome_place_activity (env : Env) (rng : NsgaII.InitRng) (idx : ℕ)
    (t : TT) (act : Activity) (s : String)
    (h : (dictGet t s).isSome = true) :
    (dictGet (NsgaII.place_activity env rng idx t act) s).isSome = true := by
  unfold NsgaII.place_activity
  dsimp only
  split
  · exact entrySome_place_first env act _ _ t _ s (by assumption) h
  · split
    · exact entrySome_tset t _ _ _ s h
    · exact h

theorem entrySome_fold_place (env : Env) (rng : NsgaII.InitRng)
    (l : List (ℕ × Activity)) (t : TT) (s : String)
    (h : (dictGet t s).isSome = true) :
    (dictGet (l.foldl (fun t ia => NsgaII.place_activity env rng ia.1 t ia.2) t)
      s).isSome = true := by
  induction l generalizing t with
  | nil => exact h
  | cons ia rest ih =>
      rw [List.foldl_cons]
      exact ih _ (entrySome_place_activity env rng ia.1 t ia.2 s h)

theorem entrySome_t0 (slots : List String) (s : String) (hs : s ∈ slots) :
    (dictGet ((slots.map (fun s2 => (s2, ([] : List (String × Option Activity))))) : TT)
      s).isSome = true := by
  unfold dictGet
  have hfind : ((slots.map
      (fun s2 => (s2, ([] : List (String × Option Activity))))).find?
        (fun e => e.1 == s)).isSome = true :=
    List.find?_isSome.mpr ⟨(s, []), List.mem_map.mpr ⟨s, hs, rfl⟩, by simp⟩
  cases hf : (slots.map
      (fun s2 => (s2, ([] : List (String × Option Activity))))).find?
        (fun e => e.1 == s) with
  | none =>
      rw [hf] at hfind
      exact absurd hfind (by simp)
  | some x => rfl

theorem complete_generate_individual (env : Env) (rng : NsgaII.InitRng) :
    NsgaII.complete env (NsgaII.generate_individual env rng) = true := by
  unfold NsgaII.generate_individual
  dsimp only
  apply fill_missing_complete
  intro s hs
  apply entrySome_fold_place
  exact entrySome_t0 env.slots s hs

/-- **C4**: every timetable out of the initializer is structurally
complete (a value, empty or activity, for every slot of the calendar and
every room of the rooms table), and crossover, repair mutation, random
mutation and the mutate dispatcher all preserve structural
completeness. -/
theorem C4_operator_completeness :
    (∀ env rng, NsgaII.complete env (NsgaII.generate_individual env rng) = true) ∧
    (∀ env cut p1 p2, NsgaII.complete env p1 = true →
       NsgaII.complete env p2 = true →
       NsgaII.complete env (NsgaII.crossover cut p1 p2).1 = true ∧
       NsgaII.complete env (NsgaII.crossover cut p1 p2).2 = true) ∧
    (∀ env rng t, NsgaII.complete env t = true →
       NsgaII.complete env (NsgaII.repair_mutation env rng t) = true) ∧
    (∀ p1 p2 r1 r2 t env, NsgaII.complete env t = true →
       NsgaII.complete env (NsgaII.random_mutation p1 p2 r1 r2 t) = true) ∧
    (∀ env b rng t, NsgaII.complete env t = true →
       NsgaII.complete env (NsgaII.mutate env b rng t) = true) :=
  ⟨fun env rng => complete_generate_individual env rng,
   fun env cut p1 p2 h1 h2 => complete_crossover cut env p1 p2 h1 h2,
   fun env rng t h => complete_repair_mutation env rng t h,
   fun p1 p2 r1 r2 t env h => complete_random_mutation p1 p2 r1 r2 env t h,
   fun env b rng t h => complete_mutate env b rng t h⟩

/-- Closed instantiation of the C4 invariant on the one-activity
instance. -/
theorem C4_operator_completeness_witness :
    NsgaII.complete env5 (NsgaII.generate_individual env5 NsgaII.rngId) = true ∧
    NsgaII.complete env5 (NsgaII.crossover 1 tt5c tt5c).1 = true ∧
    NsgaII.complete env5 (NsgaII.repair_mutation env5 rrngId tt5c) = true ∧
    NsgaII.complete env5 (NsgaII.random_mutation 0 0 0 0 tt5c) = true ∧
    NsgaII.complete env5 (NsgaII.mutate env5 true rrngId tt5c) = true :=
  ⟨C4_operator_completeness.1 env5 NsgaII.rngId,
   (C4_operator_completeness.2.1 env5 1 tt5c tt5c (by decide) (by decide)).1,
   C4_operator_completeness.2.2.1 env5 rrngId tt5c (by decide),
   C4_operator_completeness.2.2.2.1 0 0 0 0 tt5c env5 (by decide),
   C4_operator_completeness.2.2.2.2 env5 true rrngId tt5c (by decide)⟩

theorem map_keyrepl_id (es : List (String × α)) (k : String) (v : α)
    (h : ∀ x ∈ es, x.1 ≠ k) :
    es.map (fun e => if e.1 == k then (k, v) else e) = es := by
  have h2 : ∀ x ∈ es, (fun e => if e.1 == k then (k, v) else e) x = id x := by
    intro x hx
    have hb : (x.1 == k) = false := beq_eq_false_iff_ne.mpr (h x hx)
    simp only [id]
    rw [hb]
    simp
  rw [List.map_congr_left h2, List.map_id]

theorem dictGet_eq_none_of_not_mem (d : List (String × α)) (k : String)
    (hmem : dictMem d k = false) : dictGet d k = none := by
  unfold dictGet
  rw [find?_eq_none_of_not_mem d k hmem]
  rfl

theorem mem_of_dictGet_eq_some (d : List (String × α)) (k : String) (v : α)
    (h : dictGet d k = some v) : ∃ e ∈ d, e.2 = v := by
  unfold dictGet at h
  rcases Option.map_eq_some'.mp h with ⟨e, hfind, he2⟩
  exact ⟨e, List.mem_of_find?_eq_some hfind, he2⟩

theorem mem_dictSet_cases (d : List (String × α)) (k : String) (v : α)
    (e : String × α) (he : e ∈ dictSet d k v) : e ∈ d ∨ e = (k, v) := by
  unfold dictSet at he
  split at he
  · rcases List.mem_map.mp he with ⟨x, hx, hxe⟩
    by_cases hk : x.1 = k
    · right
      rw [← hxe]
      have hb : (x.1 == k) = true := beq_iff_eq.mpr hk
      rw [hb]
      simp
    · left
      have hb : (x.1 == k) = false := beq_eq_false_iff_ne.mpr hk
      have hrepl : (if (x.1 == k) = true then (k, v) else x) = x := by
        rw [hb]
        simp
      rw [← hxe, hrepl]
      exact hx
  · rcases List.mem_append.mp he with h | h
    · left
      exact h
    · right
      exact List.mem_singleton.mp h

theorem sum_map_dictSet (d : List (String × α)) (k : String) (v : α)
    (f : String × α → ℕ) (hnd : (dictKeys d).Nodup) :
    ((dictSet d k v).map f).sum +
      (match dictGet d k with
       | some old => f (k, old)
       | none => 0)
      = (d.map f).sum + f (k, v) := by
  induction d with
  | nil =>
      have : dictMem ([] : List (String × α)) k = false := by simp [dictMem]
      unfold dictSet
      rw [if_neg (by simp [this])]
      simp [dictGet]
  | cons e es ih =>
      obtain ⟨k0, v0⟩ := e
      unfold dictKeys at hnd
      rw [List.map_cons, List.nodup_cons] at hnd
      by_cases hk : k0 = k
      · subst hk
        have hmem : dictMem ((k0, v0) :: es) k0 = true := by
          rw [dictMem_cons]
          simp
        unfold dictSet
        rw [if_pos hmem]
        rw [List.map_cons]
        have hb : ((k0 : String) == k0) = true := beq_iff_eq.mpr rfl
        rw [show (((k0, v0) : String × α).1 == k0) = true from hb]
        rw [if_pos rfl]
        rw [map_keyrepl_id es k0 v
          (fun x hx hxk => hnd.1 (List.mem_map.mpr ⟨x, hx, hxk⟩))]
        rw [dictGet_cons]
        rw [show (((k0, v0) : String × α).1 == k0) = true from hb, if_pos rfl]
        simp only [List.map_cons, List.sum_cons]
        omega
      · have hb : ((k0 : String) == k) = false := beq_eq_false_iff_ne.mpr hk
        rw [dictGet_cons, show (((k0, v0) : String × α).1 == k) = false from hb,
          if_neg (by simp)]
        cases hmem2 : dictMem es k with
        | true =>
            have hmem : dictMem ((k0, v0) :: es) k = true := by
              rw [dictMem_cons, hmem2]
              simp
            unfold dictSet
            rw [if_pos hmem]
            rw [List.map_cons]
            rw [show (((k0, v0) : String × α).1 == k) = false from hb]
            rw [if_neg (by simp)]
            have hset : dictSet es k v =
                es.map (fun e => if e.1 == k then (k, v) else e) := by
              unfold dictSet
              rw [if_pos hmem2]
            rw [← hset]
            simp only [List.map_cons, List.sum_cons]
            have ih2 := ih hnd.2
            omega
        | false =>
            have hmem : dictMem ((k0, v0) :: es) k = false := by
              rw [dictMem_cons, hmem2]
              simp [hb]
            unfold dictSet
            rw [if_neg (by simp [hmem])]
            rw [dictGet_eq_none_of_not_mem es k hmem2]
            simp only [List.map_append, List.sum_append, List.map_cons,
              List.sum_cons, List.map_nil, List.sum_nil]
            omega

theorem length_filter_eq_sum_map (l : List β) (p : β → Bool) :
    (l.filter p).length = (l.map (fun x => if p x = true then 1 else 0)).sum := by
  induction l with
  | nil => rfl
  | cons a l ih =>
      rw [List.filter_cons, List.map_cons, List.sum_cons]
      by_cases h : p a = true
      · rw [if_pos h, if_pos h, List.length_cons, ih]
        omega
      · rw [if_neg h, if_neg h, ih]
        omega

theorem filter_length_dictSet (d : List (String × α)) (k : String) (v : α)
    (p : String × α → Bool) (hnd : (dictKeys d).Nodup) :
    ((dictSet d k v).filter p).length +
      (match dictGet d k with
       | some old => if p (k, old) = true then 1 else 0
       | none => 0)
      = (d.filter p).length + (if p (k, v) = true then 1 else 0) := by
  rw [length_filter_eq_sum_map, length_filter_eq_sum_map]
  exact sum_map_dictSet d k v (fun x => if p x = true then 1 else 0) hnd

theorem filter_length_dictSet_le (d : List (String × α)) (k : String) (v : α)
    (p : String × α → Bool) (hnd : (dictKeys d).Nodup) :
    ((dictSet d k v).filter p).length ≤
      (d.filter p).length + (if p (k, v) = true then 1 else 0) := by
  have h := filter_length_dictSet d k v p hnd
  omega

theorem count_tset_le (t : TT) (s r : String) (v : Option Activity) (aid : String)
    (hk : (dictKeys t).Nodup) (hin : ∀ e ∈ t, (dictKeys e.2).Nodup) :
    NsgaII.count_occurrences (NsgaII.tset t s r v) aid ≤
      NsgaII.count_occurrences t aid +
        (if (match v with
             | some a => a.id == aid
             | none => false) = true then 1 else 0) := by
  unfold NsgaII.tset NsgaII.count_occurrences
  have top := sum_map_dictSet t s (dictSet ((dictGet t s).getD []) r v)
    (fun slotE => (slotE.2.filter
      (fun c =>
        match c.2 with
        | some a => a.id == aid
        | none => false)).length) hk
  cases hget : dictGet t s with
  | none =>
      rw [hget] at top
      simp only [Option.getD_none] at top ⊢
      have inner := filter_length_dictSet_le
        ([] : List (String × Option Activity)) r v
        (fun c =>
          match c.2 with
          | some a => a.id == aid
          | none => false)
        (by simp [dictKeys])
      simp only [] at top inner
      simp only [List.filter_nil, List.length_nil] at inner
      omega
  | some sd0 =>
      rw [hget] at top
      simp only [Option.getD_some] at top ⊢
      have hsd0 : (dictKeys sd0).Nodup := by
        rcases mem_of_dictGet_eq_some t s sd0 hget with ⟨e, he, he2⟩
        exact he2 ▸ hin e he
      have inner := filter_length_dictSet_le sd0 r v
        (fun c =>
          match c.2 with
          | some a => a.id == aid
          | none => false) hsd0
      simp only [] at top inner
      omega

theorem wf_tset (t : TT) (s r : String) (v : Option Activity)
    (hk : (dictKeys t).Nodup) (hin : ∀ e ∈ t, (dictKeys e.2).Nodup) :
    (dictKeys (NsgaII.tset t s r v)).Nodup ∧
    ∀ e ∈ NsgaII.tset t s r v, (dictKeys e.2).Nodup := by
  unfold NsgaII.tset
  have hsd : (dictKeys ((dictGet t s).getD [])).Nodup := by
    cases hget : dictGet t s with
    | none => simp [dictKeys]
    | some sd0 =>
        rcases mem_of_dictGet_eq_some t s sd0 hget with ⟨e, he, he2⟩
        rw [Option.getD_some]
        exact he2 ▸ hin e he
  refine ⟨nodup_keys_dictSet t s _ hk, ?_⟩
  intro e he
  rcases mem_dictSet_cases t s _ e he with h | h
  · exact hin e h
  · rw [h]
    exact nodup_keys_dictSet _ r v hsd

theorem place_first_spec (env : Env) (act : Activity) (pick : ℕ)
    (l : List String) (t t2 : TT) (aid : String)
    (hres : NsgaII.place_first env act pick t l = some t2)
    (hk : (dictKeys t).Nodup) (hin : ∀ e ∈ t, (dictKeys e.2).Nodup) :
    ((dictKeys t2).Nodup ∧ ∀ e ∈ t2, (dictKeys e.2).Nodup) ∧
    NsgaII.count_occurrences t2 aid ≤ NsgaII.count_occurrences t aid +
      (if (act.id == aid) = true then 1 else 0) := by
  induction l with
  | nil => exact absurd hres (by simp [NsgaII.place_first])
  | cons slot rest ih =>
      unfold NsgaII.place_first at hres
      split at hres
      · exact ih hres
      · have h2 := Option.some.inj hres
        subst h2
        exact ⟨wf_tset t slot _ _ hk hin, count_tset_le t slot _ (some act) aid hk hin⟩

theorem place_activity_spec (env : Env) (rng : NsgaII.InitRng) (idx : ℕ)
    (t : TT) (act : Activity) (aid : String)
    (hk : (dictKeys t).Nodup) (hin : ∀ e ∈ t, (dictKeys e.2).Nodup) :
    ((dictKeys (NsgaII.place_activity env rng idx t act)).Nodup ∧
     ∀ e ∈ NsgaII.place_activity env rng idx t act, (dictKeys e.2).Nodup) ∧
    NsgaII.count_occurrences (NsgaII.place_activity env rng idx t act) aid ≤
      NsgaII.count_occurrences t aid + (if (act.id == aid) = true then 1 else 0) := by
  unfold NsgaII.place_activity
  dsimp only
  split
  · exact place_first_spec env act _ _ t _ aid (by assumption) hk hin
  · split
    · exact ⟨wf_tset t _ _ _ hk hin, count_tset_le t _ _ (some act) aid hk hin⟩
    · exact ⟨⟨hk, hin⟩, Nat.le_add_right _ _⟩

theorem fold_place_spec (env : Env) (rng : NsgaII.InitRng)
    (l : List (ℕ × Activity)) (t : TT) (aid : String)
    (hk : (dictKeys t).Nodup) (hin : ∀ e ∈ t, (dictKeys e.2).Nodup) :
    ((dictKeys (l.foldl (fun t ia => NsgaII.place_activity env rng ia.1 t ia.2) t)).Nodup ∧
     ∀ e ∈ l.foldl (fun t ia => NsgaII.place_activity env rng ia.1 t ia.2) t,
       (dictKeys e.2).Nodup) ∧
    NsgaII.count_occurrences
        (l.foldl (fun t ia => NsgaII.place_activity env rng ia.1 t ia.2) t) aid ≤
      NsgaII.count_occurrences t aid +
        (l.filter (fun ia => ia.2.id == aid)).length := by
  induction l generalizing t with
  | nil => exact ⟨⟨hk, hin⟩, by simp⟩
  | cons ia rest ih =>
      rw [List.foldl_cons]
      have hstep := place_activity_spec env rng ia.1 t ia.2 aid hk hin
      have ihh := ih (NsgaII.place_activity env rng ia.1 t ia.2) hstep.1.1 hstep.1.2
      refine ⟨ihh.1, ?_⟩
      have hfc : ((ia :: rest).filter (fun ia => ia.2.id == aid)).length
          = (rest.filter (fun ia => ia.2.id == aid)).length
            + (if (ia.2.id == aid) = true then 1 else 0) := by
        rw [List.filter_cons]
        by_cases h : (ia.2.id == aid) = true
        · rw [if_pos h, if_pos h, List.length_cons]
        · rw [if_neg h, if_neg h]
          omega
      rw [hfc]
      have h2 := hstep.2
      refine le_trans ihh.2 ?_
      omega

theorem fillSlot_count_wf (s : String) (rl : List (String × Space)) (t : TT)
    (aid : String) (step : TT → (String × Space) → TT)
    (hstep : step = fun t re =>
      if dictMem ((dictGet t s).getD []) re.1 then t
      else NsgaII.tset t s re.1 none)
    (hk : (dictKeys t).Nodup) (hin : ∀ e ∈ t, (dictKeys e.2).Nodup) :
    ((dictKeys (rl.foldl step t)).Nodup ∧
     ∀ e ∈ rl.foldl step t, (dictKeys e.2).Nodup) ∧
    NsgaII.count_occurrences (rl.foldl step t) aid ≤
      NsgaII.count_occurrences t aid := by
  induction rl generalizing t with
  | nil => exact ⟨⟨hk, hin⟩, le_refl _⟩
  | cons re rest ih =>
      rw [List.foldl_cons]
      have hwf1 : (dictKeys (step t re)).Nodup ∧
          ∀ e ∈ step t re, (dictKeys e.2).Nodup := by
        rw [hstep]
        dsimp only
        split
        · exact ⟨hk, hin⟩
        · exact wf_tset t s re.1 none hk hin
      have hc1 : NsgaII.count_occurrences (step t re) aid ≤
          NsgaII.count_occurrences t aid := by
        rw [hstep]
        dsimp only
        split
        · exact le_refl _
        · simpa using count_tset_le t s re.1 none aid hk hin
      have ihh := ih (step t re) hwf1.1 hwf1.2
      exact ⟨ihh.1, le_trans ihh.2 hc1⟩

theorem fill_missing_count_le (env : Env) (t : TT) (aid : String)
    (hk : (dictKeys t).Nodup) (hin : ∀ e ∈ t, (dictKeys e.2).Nodup) :
    NsgaII.count_occurrences (NsgaII.fill_missing env t) aid ≤
      NsgaII.count_occurrences t aid := by
  unfold NsgaII.fill_missing
  suffices h : ∀ (L : List String) (t : TT),
      (dictKeys t).Nodup → (∀ e ∈ t, (dictKeys e.2).Nodup) →
      ((dictKeys (L.foldl
          (fun t s =>
            env.spaces.foldl
              (fun t re =>
                if dictMem ((dictGet t s).getD []) re.1 then t
                else NsgaII.tset t s re.1 none)
              t)
          t)).Nodup ∧
       ∀ e ∈ L.foldl
          (fun t s =>
            env.spaces.foldl
              (fun t re =>
                if dictMem ((dictGet t s).getD []) re.1 then t
                else NsgaII.tset t s re.1 none)
              t)
          t, (dictKeys e.2).Nodup) ∧
      NsgaII.count_occurrences (L.foldl
          (fun t s =>
            env.spaces.foldl
              (fun t re =>
                if dictMem ((dictGet t s).getD []) re.1 then t
                else NsgaII.tset t s re.1 none)
              t)
          t) aid ≤ NsgaII.count_occurrences t aid by
    exact (h env.slots t hk hin).2
  intro L
  induction L with
  | nil => exact fun t hk2 hin2 => ⟨⟨hk2, hin2⟩, le_refl _⟩
  | cons s0 rest ih =>
      intro t hk2 hin2
      rw [List.foldl_cons]
      have hslot := fillSlot_count_wf s0 env.spaces t aid _ rfl hk2 hin2
      have ihh := ih _ hslot.1.1 hslot.1.2
      exact ⟨ihh.1, le_trans ihh.2 hslot.2⟩

theorem length_filter_enumFrom (p : α → Bool) (l : List α) (n : ℕ) :
    ((List.enumFrom n l).filter (fun ia => p ia.2)).length = (l.filter p).length := by
  induction l generalizing n with
  | nil => rfl
  | cons a l ih =>
      simp only [List.enumFrom]
      rw [List.filter_cons, List.filter_cons]
      by_cases h : p a = true
      · rw [if_pos h, if_pos h, List.length_cons, List.length_cons, ih]
      · rw [if_neg h, if_neg h]
        exact ih (n + 1)

theorem length_filter_enum (p : α → Bool) (l : List α) :
    (l.enum.filter (fun ia => p ia.2)).length = (l.filter p).length :=
  length_filter_enumFrom p l 0

theorem length_filter_enum_id (l : List Activity) (aid : String) :
    (l.enum.filter (fun ia => ia.2.id == aid)).length =
      (l.filter (fun a => a.id == aid)).length := by
  have h := length_filter_enumFrom (fun a => a.id == aid) l 0
  simpa using h

theorem length_filter_pySorted (le : α → α → Bool) (l : List α) (p : α → Bool) :
    ((pySorted le l).filter p).length = (l.filter p).length :=
  ((pySorted_perm le l).filter p).length_eq

theorem length_filter_id_le_one (l : List Activity) (aid : String)
    (hnd : (l.map (fun a => a.id)).Nodup) :
    (l.filter (fun a => a.id == aid)).length ≤ 1 := by
  induction l with
  | nil => simp
  | cons a l ih =>
      rw [List.map_cons, List.nodup_cons] at hnd
      rw [List.filter_cons]
      by_cases h : (a.id == aid) = true
      · rw [if_pos h]
        have hnil : l.filter (fun a => a.id == aid) = [] := by
          rw [List.filter_eq_nil_iff]
          intro b hb hbid
          exact hnd.1 (List.mem_map.mpr ⟨b, hb, by
            rw [beq_iff_eq.mp hbid, beq_iff_eq.mp h]⟩)
        rw [hnil]
        simp
      · rw [if_neg h]
        exact ih hnd.2

theorem count_t0 (slots : List String) (aid : String) :
    NsgaII.count_occurrences
      (slots.map (fun s => (s, ([] : List (String × Option Activity))))) aid = 0 := by
  induction slots with
  | nil => rfl
  | cons s rest ih =>
      unfold NsgaII.count_occurrences at ih ⊢
      rw [List.map_cons, List.map_cons, List.sum_cons]
      simpa using ih

theorem keys_t0 (slots : List String) :
    dictKeys (slots.map (fun s => (s, ([] : List (String × Option Activity))))) = slots := by
  unfold dictKeys
  rw [List.map_map]
  have h2 : ∀ x ∈ slots,
      ((fun e => e.1) ∘ fun s => (s, ([] : List (String × Option Activity)))) x
        = id x := fun x _ => rfl
  rw [List.map_congr_left h2, List.map_id]

theorem inner_t0 (slots : List String) :
    ∀ e ∈ slots.map (fun s => (s, ([] : List (String × Option Activity)))),
      (dictKeys e.2).Nodup := by
  intro e he
  rcases List.mem_map.mp he with ⟨s, hs, rfl⟩
  simp [dictKeys]

/-- **C5** (amended): the initializer performs a single placement walk per
activity, not one per required occurrence: with duplicate-free slot names
and activity ids, the initialized timetable holds each activity id in at
most one cell even when the activity's duration exceeds one. -/
theorem C5_single_placement_amended (env : Env) (rng : NsgaII.InitRng)
    (aid : String) (hslots : env.slots.Nodup)
    (hids : ((dictVals env.activities).map (fun a => a.id)).Nodup) :
    NsgaII.count_occurrences (NsgaII.generate_individual env rng) aid ≤ 1 := by
  unfold NsgaII.generate_individual
  dsimp only
  have hk0 : (dictKeys (env.slots.map
      (fun s => (s, ([] : List (String × Option Activity)))))).Nodup := by
    rw [keys_t0]
    exact hslots
  have hin0 := inner_t0 env.slots
  have hfold := fold_place_spec env rng
    ((pySorted (fun a b => NsgaII.keyLe (b.group_ids.length, b.duration)
      (a.group_ids.length, a.duration)) (dictVals env.activities)).enum)
    (env.slots.map (fun s => (s, []))) aid hk0 hin0
  refine le_trans (fill_missing_count_le env _ aid hfold.1.1 hfold.1.2) ?_
  refine le_trans hfold.2 ?_
  rw [count_t0, length_filter_enum_id, length_filter_pySorted]
  have hone := length_filter_id_le_one (dictVals env.activities) aid hids
  omega

/-- **C5**: in `env5` the single activity has duration `2` and a
conflict-free feasible room in the very first slot, yet the initializer
leaves it in exactly one cell, not two. -/
theorem C5_initializer_counterexample :
    (dictGet env5.activities "A").map (fun a => a.duration) = some 2 ∧
    NsgaII.find_suitable_rooms env5 ⟨"A", "S", "L", ["G"], 2⟩ "s1"
      (env5.slots.map (fun s => (s, []))) ≠ [] ∧
    NsgaII.count_occurrences (NsgaII.generate_individual env5 NsgaII.rngId) "A" = 1 := by
  decide

/-- Closed instantiation of the amended C5 bound on `env5`. -/
theorem C5_single_placement_amended_witness :
    NsgaII.count_occurrences (NsgaII.generate_individual env5 NsgaII.rngId) "A" ≤ 1 :=
  C5_single_placement_amended env5 NsgaII.rngId "A" (by decide) (by decide)

/-! # NSGA-II non-dominated sorting lemmas (claim C8) -/

theorem dominates_nil_left (v : List ℚ) : NsgaII.dominates [] v = false := by
  simp [NsgaII.dominates]

theorem dominates_nil_right (v : List ℚ) : NsgaII.dominates v [] = false := by
  simp [NsgaII.dominates]

theorem getD_length_eq (fv : List (List ℚ)) (m : ℕ)
    (hlen : ∀ v ∈ fv, v.length = m) (i : ℕ) (hi : i < fv.length) :
    (fv.getD i []).length = m := by
  rw [List.getD_eq_getElem _ _ hi]
  exact hlen _ (List.getElem_mem _)

theorem dpredB_lt (fv : List (List ℚ)) (j i : ℕ)
    (h : NsgaII.dpredB fv j i = true) : i < fv.length ∧ j < fv.length := by
  unfold NsgaII.dpredB at h
  rw [Bool.and_eq_true] at h
  have hd := h.2
  constructor
  · by_contra hi
    have hnil : fv.getD i [] = [] := List.getD_eq_default _ _ (by omega)
    rw [hnil, dominates_nil_left] at hd
    exact absurd hd (by simp)
  · by_contra hj
    have hnil : fv.getD j [] = [] := List.getD_eq_default _ _ (by omega)
    rw [hnil, dominates_nil_right] at hd
    exact absurd hd (by simp)

theorem zip_self_fst_eq_snd (w : List ℚ) : ∀ p ∈ w.zip w, p.1 = p.2 := by
  induction w with
  | nil => simp
  | cons a t ih =>
      intro p hp
      rw [List.zip_cons_cons] at hp
      rcases List.mem_cons.mp hp with rfl | hp2
      · rfl
      · exact ih p hp2

theorem dominates_irrefl (v : List ℚ) : NsgaII.dominates v v = false := by
  unfold NsgaII.dominates
  have h : (v.zip v).any (fun p => decide (p.1 < p.2)) = false := by
    rw [← Bool.not_eq_true, List.any_eq_true]
    rintro ⟨p, hp, hlt⟩
    have he := zip_self_fst_eq_snd v p hp
    rw [he] at hlt
    exact absurd (of_decide_eq_true hlt) (lt_irrefl _)
  rw [h, Bool.and_false]

theorem zip_getD_mem (a b : List ℚ) (k : ℕ) (hk : k < a.length)
    (hk2 : k < b.length) : (a.getD k 0, b.getD k 0) ∈ a.zip b := by
  have hkz : k < (a.zip b).length := by
    rw [List.length_zip]
    omega
  have hz : (a.zip b).get ⟨k, hkz⟩ = (a.getD k 0, b.getD k 0) := by
    rw [List.get_eq_getElem, List.getElem_zip,
      List.getD_eq_getElem _ _ hk, List.getD_eq_getElem _ _ hk2]
  rw [← hz]
  exact List.get_mem _ _ _

theorem mem_zip_index (a b : List ℚ) (p : ℚ × ℚ) (hp : p ∈ a.zip b) :
    ∃ k, k < a.length ∧ k < b.length ∧
      p.1 = a.getD k 0 ∧ p.2 = b.getD k 0 := by
  rcases List.mem_iff_getElem.mp hp with ⟨k, hk, hkeq⟩
  have hka : k < a.length := by
    rw [List.length_zip] at hk
    omega
  have hkb : k < b.length := by
    rw [List.length_zip] at hk
    omega
  refine ⟨k, hka, hkb, ?_, ?_⟩
  · rw [← hkeq, List.getElem_zip, List.getD_eq_getElem _ _ hka]
  · rw [← hkeq, List.getElem_zip, List.getD_eq_getElem _ _ hkb]

theorem dominates_trans {m : ℕ} {a b c : List ℚ} (ha : a.length = m)
    (hb : b.length = m) (hc : c.length = m)
    (h1 : NsgaII.dominates a b = true) (h2 : NsgaII.dominates b c = true) :
    NsgaII.dominates a c = true := by
  unfold NsgaII.dominates at h1 h2 ⊢
  rw [Bool.and_eq_true] at h1 h2
  rw [Bool.and_eq_true]
  obtain ⟨h1a, h1e⟩ := h1
  obtain ⟨h2a, h2e⟩ := h2
  rw [List.all_eq_true] at h1a h2a
  rw [List.any_eq_true] at h1e h2e
  have hab : ∀ k, k < m → a.getD k 0 ≤ b.getD k 0 := by
    intro k hk
    exact of_decide_eq_true (h1a _ (zip_getD_mem a b k (by omega) (by omega)))
  have hbc : ∀ k, k < m → b.getD k 0 ≤ c.getD k 0 := by
    intro k hk
    exact of_decide_eq_true (h2a _ (zip_getD_mem b c k (by omega) (by omega)))
  constructor
  · rw [List.all_eq_true]
    intro p hp
    rcases mem_zip_index a c p hp with ⟨k, hka, hkc, hp1, hp2⟩
    rw [hp1, hp2]
    exact decide_eq_true (le_trans (hab k (by omega)) (hbc k (by omega)))
  · rw [List.any_eq_true]
    rcases h1e with ⟨p, hp, hplt⟩
    rcases mem_zip_index a b p hp with ⟨k, hka, hkb, hp1, hp2⟩
    rw [hp1, hp2] at hplt
    have hlt : a.getD k 0 < b.getD k 0 := of_decide_eq_true hplt
    refine ⟨(a.getD k 0, c.getD k 0),
      zip_getD_mem a c k (by omega) (by omega), ?_⟩
    exact decide_eq_true (lt_of_lt_of_le hlt (hbc k (by omega)))

theorem exists_undominated (fv : List (List ℚ)) (m : ℕ)
    (hlen : ∀ v ∈ fv, v.length = m) (S : List ℕ) (hne : S ≠ [])
    (hS : ∀ i ∈ S, i < fv.length) :
    ∃ j ∈ S, ∀ i ∈ S,
      NsgaII.dominates (fv.getD i []) (fv.getD j []) = false := by
  induction S with
  | nil => exact absurd rfl hne
  | cons a S ih =>
      by_cases hS0 : S = []
      · subst hS0
        refine ⟨a, List.mem_cons_self a [], ?_⟩
        intro i hi
        rcases List.mem_cons.mp hi with rfl | hi2
        · exact dominates_irrefl _
        · exact absurd hi2 (List.not_mem_nil i)
      · have hS2 : ∀ i ∈ S, i < fv.length :=
          fun i hi => hS i (List.mem_cons_of_mem a hi)
        rcases ih hS0 hS2 with ⟨j0, hj0S, hj0min⟩
        by_cases hd : NsgaII.dominates (fv.getD a []) (fv.getD j0 []) = true
        · refine ⟨a, List.mem_cons_self a S, ?_⟩
          intro i hi
          rcases List.mem_cons.mp hi with rfl | hiS
          · exact dominates_irrefl _
          · by_contra hia
            rw [Bool.not_eq_false] at hia
            have htr := dominates_trans
              (getD_length_eq fv m hlen i (hS2 i hiS))
              (getD_length_eq fv m hlen a (hS a (List.mem_cons_self a S)))
              (getD_length_eq fv m hlen j0 (hS2 j0 hj0S)) hia hd
            have hf := hj0min i hiS
            rw [htr] at hf
            exact absurd hf (by simp)
        · refine ⟨j0, List.mem_cons_of_mem a hj0S, ?_⟩
          intro i hi
          rcases List.mem_cons.mp hi with rfl | hiS
          · exact Bool.eq_false_iff.mpr hd
          · exact hj0min i hiS

theorem getD_set_self (l : List ℤ) (i : ℕ) (v : ℤ) (h : i < l.length) :
    (l.set i v).getD i 0 = v := by
  rw [List.getD_eq_getElem _ _ (by rw [List.length_set]; exact h)]
  exact List.getElem_set_self _

theorem getD_set_ne (l : List ℤ) (i j : ℕ) (v : ℤ) (h : j ≠ i) :
    (l.set i v).getD j 0 = l.getD j 0 := by
  by_cases hj : j < l.length
  · rw [List.getD_eq_getElem _ _ (by rw [List.length_set]; exact hj),
      List.getD_eq_getElem _ _ hj]
    exact List.getElem_set_ne (fun he => h he.symm) _
  · rw [List.getD_eq_default _ _ (by rw [List.length_set]; omega),
      List.getD_eq_default _ _ (by omega)]

theorem decr_fold (E : List ℕ) (c : List ℤ) (acc : List ℕ)
    (hE : ∀ j ∈ E, j < c.length) :
    (E.foldl NsgaII.decr_step (c, acc)).1.length = c.length ∧
    (∀ j, (E.foldl NsgaII.decr_step (c, acc)).1.getD j 0
        = c.getD j 0 - (E.count j : ℤ)) ∧
    (∀ j, (E.foldl NsgaII.decr_step (c, acc)).2.count j
        = acc.count j +
          (if 1 ≤ c.getD j 0 ∧ c.getD j 0 ≤ (E.count j : ℤ) then 1 else 0)) := by
  induction E generalizing c acc with
  | nil =>
      refine ⟨rfl, fun j => by simp, fun j => ?_⟩
      simp only [List.foldl_nil, List.count_nil, Nat.cast_zero]
      rw [if_neg (by omega)]
      omega
  | cons e E ih =>
      rw [List.foldl_cons]
      have he : e < c.length := hE e (List.mem_cons_self e E)
      have hE2 : ∀ j ∈ E, j < c.length :=
        fun j hj => hE j (List.mem_cons_of_mem e hj)
      have hE3 : ∀ j ∈ E, j < (c.set e (c.getD e 0 - 1)).length :=
        fun j hj => by rw [List.length_set]; exact hE2 j hj
      have hstep : NsgaII.decr_step (c, acc) e =
          (if (c.set e (c.getD e 0 - 1)).getD e 0 = 0
           then (c.set e (c.getD e 0 - 1), acc ++ [e])
           else (c.set e (c.getD e 0 - 1), acc)) := rfl
      rw [hstep, getD_set_self c e _ he]
      by_cases hz : c.getD e 0 - 1 = 0
      · rw [if_pos hz]
        have ihh := ih (c.set e (c.getD e 0 - 1)) (acc ++ [e]) hE3
        refine ⟨by rw [ihh.1, List.length_set], ?_, ?_⟩
        · intro j
          rw [ihh.2.1 j]
          by_cases hje : j = e
          · subst hje
            rw [getD_set_self c j _ he, List.count_cons_self]
            push_cast
            omega
          · rw [getD_set_ne c e j _ hje, List.count_cons_of_ne hje]
        · intro j
          rw [ihh.2.2 j]
          by_cases hje : j = e
          · subst hje
            rw [getD_set_self c j _ he, List.count_cons_self, List.count_append]
            have hone : List.count j [j] = 1 := by simp
            rw [hone]
            rw [if_neg (by omega)]
            rw [if_pos (by push_cast; omega)]
          · rw [getD_set_ne c e j _ hje, List.count_cons_of_ne hje,
              List.count_append]
            have hzero : List.count j [e] = 0 :=
              List.count_eq_zero.mpr (by simp [hje])
            rw [hzero]
            omega
      · rw [if_neg hz]
        have ihh := ih (c.set e (c.getD e 0 - 1)) acc hE3
        refine ⟨by rw [ihh.1, List.length_set], ?_, ?_⟩
        · intro j
          rw [ihh.2.1 j]
          by_cases hje : j = e
          · subst hje
            rw [getD_set_self c j _ he, List.count_cons_self]
            push_cast
            omega
          · rw [getD_set_ne c e j _ hje, List.count_cons_of_ne hje]
        · intro j
          rw [ihh.2.2 j]
          by_cases hje : j = e
          · subst hje
            rw [getD_set_self c j _ he, List.count_cons_self]
            split_ifs <;> push_cast at * <;> omega
          · rw [getD_set_ne c e j _ hje, List.count_cons_of_ne hje]

theorem sum_map_ite_eq_filter_length (l : List ℕ) (q : ℕ → Bool) :
    (l.map (fun i => if q i = true then 1 else 0)).sum = (l.filter q).length := by
  induction l with
  | nil => rfl
  | cons a l ih =>
      rw [List.map_cons, List.sum_cons, List.filter_cons]
      by_cases h : q a = true
      · rw [if_pos h, if_pos h, List.length_cons, ih]
        omega
      · rw [if_neg h, if_neg h, ih]
        omega

theorem count_flatMap_eq (f : List ℕ) (g : ℕ → List ℕ) (j : ℕ) :
    (f.flatMap g).count j = (f.map (fun i => (g i).count j)).sum := by
  induction f with
  | nil => rfl
  | cons a f ih =>
      rw [List.flatMap_cons, List.count_append, List.map_cons, List.sum_cons, ih]

theorem getD_map_range (g : ℕ → α) (d : α) (n i : ℕ) (h : i < n) :
    ((List.range n).map g).getD i d = g i := by
  rw [List.getD_eq_getElem _ _
    (by rw [List.length_map, List.length_range]; exact h)]
  rw [List.getElem_map, List.getElem_range]

theorem mem_dominated_by_iff (fv : List (List ℚ)) (i j : ℕ) :
    j ∈ NsgaII.dominated_by_list fv i ↔ NsgaII.dpredB fv j i = true := by
  unfold NsgaII.dominated_by_list NsgaII.dpredB
  rw [List.mem_filter, List.mem_range]
  constructor
  · rintro ⟨hjn, hpred⟩
    rw [Bool.and_eq_true] at hpred ⊢
    exact ⟨decide_eq_true (fun hij => (of_decide_eq_true hpred.1) hij.symm),
      hpred.2⟩
  · intro hpred
    rw [Bool.and_eq_true] at hpred
    have hd := hpred.2
    have hjn : j < fv.length := by
      by_contra hj
      have hnil : fv.getD j [] = [] := List.getD_eq_default _ _ (by omega)
      rw [hnil, dominates_nil_right] at hd
      exact absurd hd (by simp)
    refine ⟨hjn, ?_⟩
    rw [Bool.and_eq_true]
    exact ⟨decide_eq_true (fun hji => (of_decide_eq_true hpred.1) hji.symm), hd⟩

theorem count_dominated_by (fv : List (List ℚ)) (i j : ℕ) :
    (NsgaII.dominated_by_list fv i).count j
      = if NsgaII.dpredB fv j i = true then 1 else 0 := by
  by_cases h : NsgaII.dpredB fv j i = true
  · rw [if_pos h]
    exact List.count_eq_one_of_mem (List.Nodup.filter _ (List.nodup_range _))
      ((mem_dominated_by_iff fv i j).mpr h)
  · rw [if_neg h]
    exact List.count_eq_zero.mpr
      (fun hmem => h ((mem_dominated_by_iff fv i j).mp hmem))

theorem count_events (fv : List (List ℚ)) (f : List ℕ) (j : ℕ)
    (hf : ∀ i ∈ f, i < fv.length) :
    (f.flatMap (fun i =>
        (((List.range fv.length).map (NsgaII.dominated_by_list fv)).getD i
          []))).count j
      = NsgaII.DcapL fv j f := by
  rw [count_flatMap_eq]
  unfold NsgaII.DcapL
  rw [← sum_map_ite_eq_filter_length]
  apply congrArg List.sum
  apply List.map_congr_left
  intro i hi
  rw [getD_map_range _ _ _ _ (hf i hi)]
  exact count_dominated_by fv i j

theorem DcapL_append (fv : List (List ℚ)) (j : ℕ) (L1 L2 : List ℕ) :
    NsgaII.DcapL fv j (L1 ++ L2)
      = NsgaII.DcapL fv j L1 + NsgaII.DcapL fv j L2 := by
  unfold NsgaII.DcapL
  rw [List.filter_append, List.length_append]

theorem DcapL_le_card (fv : List (List ℚ)) (j : ℕ) (L : List ℕ)
    (hnd : L.Nodup) :
    NsgaII.DcapL fv j L ≤ NsgaII.domination_count fv j := by
  unfold NsgaII.DcapL NsgaII.domination_count
  have hsub : ∀ x ∈ L.filter (NsgaII.dpredB fv j),
      x ∈ (List.range fv.length).filter (NsgaII.dpredB fv j) := by
    intro x hx
    have hx2 := List.mem_filter.mp hx
    rw [List.mem_filter]
    exact ⟨List.mem_range.mpr (dpredB_lt fv j x hx2.2).1, hx2.2⟩
  exact (List.Nodup.subperm (List.Nodup.filter _ hnd) hsub).length_le

theorem dominators_subset_of_card (fv : List (List ℚ)) (j : ℕ) (L : List ℕ)
    (hnd : L.Nodup)
    (hge : NsgaII.domination_count fv j ≤ NsgaII.DcapL fv j L) :
    ∀ i, NsgaII.dpredB fv j i = true → i ∈ L := by
  intro i hi
  by_contra hiL
  have hsub : ∀ x ∈ L.filter (NsgaII.dpredB fv j),
      x ∈ ((List.range fv.length).filter (NsgaII.dpredB fv j)).erase i := by
    intro x hx
    have hx2 := List.mem_filter.mp hx
    have hxi : x ≠ i := fun he => hiL (he ▸ hx2.1)
    rw [List.mem_erase_of_ne hxi, List.mem_filter]
    exact ⟨List.mem_range.mpr (dpredB_lt fv j x hx2.2).1, hx2.2⟩
  have hlen := (List.Nodup.subperm (List.Nodup.filter _ hnd) hsub).length_le
  have hmem : i ∈ (List.range fv.length).filter (NsgaII.dpredB fv j) := by
    rw [List.mem_filter]
    exact ⟨List.mem_range.mpr (dpredB_lt fv j i hi).1, hi⟩
  have herase := List.length_erase_of_mem hmem
  unfold NsgaII.DcapL NsgaII.domination_count at hge
  have hpos : 0 < ((List.range fv.length).filter (NsgaII.dpredB fv j)).length :=
    List.length_pos_of_mem hmem
  omega

theorem card_le_DcapL (fv : List (List ℚ)) (j : ℕ) (L : List ℕ)
    (hsub : ∀ i, NsgaII.dpredB fv j i = true → i ∈ L) :
    NsgaII.domination_count fv j ≤ NsgaII.DcapL fv j L := by
  unfold NsgaII.DcapL NsgaII.domination_count
  have hs : ∀ x ∈ (List.range fv.length).filter (NsgaII.dpredB fv j),
      x ∈ L.filter (NsgaII.dpredB fv j) := by
    intro x hx
    have hx2 := List.mem_filter.mp hx
    rw [List.mem_filter]
    exact ⟨hsub x hx2.2, hx2.2⟩
  exact (List.Nodup.subperm
    (List.Nodup.filter _ (List.nodup_range _)) hs).length_le

theorem mem_front0_iff (fv : List (List ℚ)) (i : ℕ) :
    i ∈ (List.range fv.length).filter
        (fun i => NsgaII.domination_count fv i == 0)
      ↔ i < fv.length ∧ NsgaII.domination_count fv i = 0 := by
  rw [List.mem_filter, List.mem_range]
  constructor
  · rintro ⟨h1, h2⟩
    rw [beq_iff_eq] at h2
    exact ⟨h1, h2⟩
  · rintro ⟨h1, h2⟩
    exact ⟨h1, beq_iff_eq.mpr h2⟩

theorem fns_rounds_spec (fv : List (List ℚ)) (m : ℕ)
    (hlen : ∀ v ∈ fv, v.length = m) :
    ∀ (fuel : ℕ) (counts : List ℤ) (front P : List ℕ),
      NsgaII.FnsInv fv counts front P fuel →
      NsgaII.FnsRes fv
        (NsgaII.fns_rounds
          ((List.range fv.length).map (NsgaII.dominated_by_list fv))
          fuel counts front) P := by
  intro fuel
  induction fuel with
  | zero =>
      intro counts front P hinv
      obtain ⟨hV0, hPnd, hfnd, hPlt, hflt, hfP, hV2, hV3, hV4, hV5, hV6⟩ := hinv
      exfalso
      have hle : P.length ≤ fv.length := by
        have hsub : ∀ x ∈ P, x ∈ List.range fv.length :=
          fun x hx => List.mem_range.mpr (hPlt x hx)
        have h := (List.Nodup.subperm hPnd hsub).length_le
        simpa [List.length_range] using h
      omega
  | succ fuel ih =>
      intro counts front P hinv
      obtain ⟨hV0, hPnd, hfnd, hPlt, hflt, hfP, hV2, hV3, hV4, hV5, hV6⟩ := hinv
      rw [NsgaII.fns_rounds]
      by_cases hfe : front.isEmpty
      · rw [if_pos hfe]
        have hfnil : front = [] := List.isEmpty_iff.mp hfe
        subst hfnil
        have hall : ∀ j, j < fv.length → j ∈ P := by
          by_contra hno
          push_neg at hno
          obtain ⟨j1, hj1n, hj1P⟩ := hno
          have hUne : (List.range fv.length).filter
              (fun i => decide (i ∉ P)) ≠ [] := by
            intro hU
            rw [List.filter_eq_nil_iff] at hU
            exact hU j1 (List.mem_range.mpr hj1n) (decide_eq_true hj1P)
          have hUsub : ∀ i ∈ (List.range fv.length).filter
              (fun i => decide (i ∉ P)), i < fv.length :=
            fun i hi => List.mem_range.mp (List.mem_filter.mp hi).1
          obtain ⟨j0, hj0U, hj0min⟩ :=
            exists_undominated fv m hlen _ hUne hUsub
          have hj0n : j0 < fv.length := hUsub j0 hj0U
          have hj0P : j0 ∉ P :=
            of_decide_eq_true (List.mem_filter.mp hj0U).2
          have hdom : ∀ i, NsgaII.dpredB fv j0 i = true → i ∈ P := by
            intro i hi
            by_contra hiP
            have hin : i < fv.length := (dpredB_lt fv j0 i hi).1
            have hiU : i ∈ (List.range fv.length).filter
                (fun i => decide (i ∉ P)) := by
              rw [List.mem_filter]
              exact ⟨List.mem_range.mpr hin, decide_eq_true hiP⟩
            have hdi := hj0min i hiU
            unfold NsgaII.dpredB at hi
            rw [Bool.and_eq_true] at hi
            rw [hi.2] at hdi
            exact absurd hdi (by simp)
          have hge := card_le_DcapL fv j0 P hdom
          have hV5j := hV5 j0 hj0n hj0P (List.not_mem_nil j0)
          omega
        refine ⟨?_, ?_, ?_, ?_, ?_⟩
        · intro j hj
          exact Or.inl (hall j hj)
        · intro k j hj
          simp only [List.getD_nil] at hj
          exact absurd hj (List.not_mem_nil j)
        · intro k
          simp only [List.getD_nil]
          exact List.nodup_nil
        · intro k1 k2 j hj
          simp only [List.getD_nil] at hj
          exact absurd hj (List.not_mem_nil j)
        · intro k j i hj
          simp only [List.getD_nil] at hj
          exact absurd hj (List.not_mem_nil j)
      · rw [if_neg hfe]
        have hfne : front ≠ [] := fun h => hfe (by rw [h]; rfl)
        dsimp only
        have hdf := decr_fold
          (front.flatMap (fun i =>
            (((List.range fv.length).map (NsgaII.dominated_by_list fv))).getD
              i [])) counts []
          (by
            intro x hx
            rw [hV0]
            rcases List.mem_flatMap.mp hx with ⟨i, hif, hxin⟩
            have hin : i < fv.length := hflt i hif
            rw [getD_map_range _ _ _ _ hin] at hxin
            exact (dpredB_lt fv x i
              ((mem_dominated_by_iff fv i x).mp hxin)).2)
        have hEcnt := fun j => count_events fv front j hflt
        have hc'get : ∀ j,
            (NsgaII.process_front
              ((List.range fv.length).map (NsgaII.dominated_by_list fv))
              counts front).1.getD j 0
            = counts.getD j 0 - (NsgaII.DcapL fv j front : ℤ) := by
          intro j
          have h := hdf.2.1 j
          rw [hEcnt j] at h
          exact h
        have hnfcnt : ∀ j,
            (NsgaII.process_front
              ((List.range fv.length).map (NsgaII.dominated_by_list fv))
              counts front).2.count j
            = if 1 ≤ counts.getD j 0 ∧
                counts.getD j 0 ≤ (NsgaII.DcapL fv j front : ℤ)
              then 1 else 0 := by
          intro j
          have h := hdf.2.2 j
          rw [hEcnt j, List.count_nil, Nat.zero_add] at h
          exact h
        have hnfmem : ∀ j,
            j ∈ (NsgaII.process_front
              ((List.range fv.length).map (NsgaII.dominated_by_list fv))
              counts front).2
            ↔ (1 ≤ counts.getD j 0 ∧
               counts.getD j 0 ≤ (NsgaII.DcapL fv j front : ℤ)) := by
          intro j
          rw [← List.count_pos_iff, hnfcnt j]
          by_cases h : 1 ≤ counts.getD j 0 ∧
              counts.getD j 0 ≤ (NsgaII.DcapL fv j front : ℤ)
          · rw [if_pos h]
            exact ⟨fun _ => h, fun _ => by omega⟩
          · rw [if_neg h]
            exact ⟨fun h0 => absurd h0 (by omega), fun hc => absurd hc h⟩
        have hdisj : ∀ a ∈ P, a ∉ front := fun a haP haf => hfP a haf haP
        have hfPnd : (P ++ front).Nodup :=
          List.nodup_append.mpr ⟨hPnd, hfnd, hdisj⟩
        have hemitlt : ∀ j ∈ P ++ front, j < fv.length := by
          intro j hj
          rcases List.mem_append.mp hj with h | h
          · exact hPlt j h
          · exact hflt j h
        have hzeroEmitted : ∀ j ∈ P ++ front, counts.getD j 0 = 0 := by
          intro j hj
          have hjn := hemitlt j hj
          have hDsubP : ∀ i, NsgaII.dpredB fv j i = true → i ∈ P := by
            rcases List.mem_append.mp hj with h | h
            · exact hV4 j h
            · exact hV3 j h
          have hge := card_le_DcapL fv j P hDsubP
          have hle := DcapL_le_card fv j P hPnd
          have h2 := hV2 j hjn
          omega
        have hnflt : ∀ j ∈ (NsgaII.process_front
            ((List.range fv.length).map (NsgaII.dominated_by_list fv))
            counts front).2, j < fv.length := by
          intro j hj
          rw [hnfmem j] at hj
          by_contra hjn
          have : counts.getD j 0 = 0 :=
            List.getD_eq_default _ _ (by omega)
          omega
        have hnfP : ∀ j ∈ (NsgaII.process_front
            ((List.range fv.length).map (NsgaII.dominated_by_list fv))
            counts front).2, j ∉ P ++ front := by
          intro j hj hjem
          rw [hnfmem j] at hj
          have := hzeroEmitted j hjem
          omega
        have hnfnd : (NsgaII.process_front
            ((List.range fv.length).map (NsgaII.dominated_by_list fv))
            counts front).2.Nodup := by
          rw [List.nodup_iff_count_le_one]
          intro j
          rw [hnfcnt j]
          by_cases h : 1 ≤ counts.getD j 0 ∧
              counts.getD j 0 ≤ (NsgaII.DcapL fv j front : ℤ)
          · rw [if_pos h]
          · rw [if_neg h]
            omega
        have hinv2 : NsgaII.FnsInv fv
            (NsgaII.process_front
              ((List.range fv.length).map (NsgaII.dominated_by_list fv))
              counts front).1
            (NsgaII.process_front
              ((List.range fv.length).map (NsgaII.dominated_by_list fv))
              counts front).2
            (P ++ front) fuel := by
          refine ⟨?_, hfPnd, hnfnd, hemitlt, hnflt, hnfP, ?_, ?_, ?_, ?_, ?_⟩
          · have h := hdf.1
            rw [hV0] at h
            exact h
          · intro j hjn
            rw [hc'get j, hV2 j hjn, DcapL_append]
            push_cast
            ring
          · intro j hj i hi
            rw [hnfmem j] at hj
            have hjn := hnflt j ((hnfmem j).mpr hj)
            have h2 := hV2 j hjn
            have hge : NsgaII.domination_count fv j ≤
                NsgaII.DcapL fv j (P ++ front) := by
              rw [DcapL_append]
              omega
            exact dominators_subset_of_card fv j (P ++ front) hfPnd hge i hi
          · intro j hj i hi
            rcases List.mem_append.mp hj with h | h
            · exact List.mem_append_left front (hV4 j h i hi)
            · exact List.mem_append_left front (hV3 j h i hi)
          · intro j hjn hjP hjnf
            have hjP2 : j ∉ P := fun h => hjP (List.mem_append_left front h)
            have hjf : j ∉ front := fun h => hjP (List.mem_append_right P h)
            have h5 := hV5 j hjn hjP2 hjf
            have h2 := hV2 j hjn
            have hnm : ¬(1 ≤ counts.getD j 0 ∧
                counts.getD j 0 ≤ (NsgaII.DcapL fv j front : ℤ)) :=
              fun hc => hjnf ((hnfmem j).mpr hc)
            rw [DcapL_append]
            omega
          · rw [List.length_append]
            have hpos : 0 < front.length := List.length_pos.mpr hfne
            omega
        have hres := ih _ _ _ hinv2
        refine ⟨?_, ?_, ?_, ?_, ?_⟩
        · intro j hjn
          rcases hres.1 j hjn with h | ⟨k, hk⟩
          · rcases List.mem_append.mp h with h2 | h2
            · exact Or.inl h2
            · exact Or.inr ⟨0, by rw [List.getD_cons_zero]; exact h2⟩
          · exact Or.inr ⟨k + 1, by rw [List.getD_cons_succ]; exact hk⟩
        · intro k j hj
          cases k with
          | zero =>
              rw [List.getD_cons_zero] at hj
              exact ⟨hflt j hj, hfP j hj⟩
          | succ k =>
              rw [List.getD_cons_succ] at hj
              have h := hres.2.1 k j hj
              exact ⟨h.1, fun hP => h.2 (List.mem_append_left front hP)⟩
        · intro k
          cases k with
          | zero =>
              rw [List.getD_cons_zero]
              exact hfnd
          | succ k =>
              rw [List.getD_cons_succ]
              exact hres.2.2.1 k
        · intro k1 k2 j hj1 hj2
          cases k1 with
          | zero =>
              cases k2 with
              | zero => rfl
              | succ k2 =>
                  rw [List.getD_cons_zero] at hj1
                  rw [List.getD_cons_succ] at hj2
                  exact absurd (List.mem_append_right P hj1)
                    (hres.2.1 k2 j hj2).2
          | succ k1 =>
              cases k2 with
              | zero =>
                  rw [List.getD_cons_succ] at hj1
                  rw [List.getD_cons_zero] at hj2
                  exact absurd (List.mem_append_right P hj2)
                    (hres.2.1 k1 j hj1).2
              | succ k2 =>
                  rw [List.getD_cons_succ] at hj1
                  rw [List.getD_cons_succ] at hj2
                  exact congrArg Nat.succ (hres.2.2.2.1 k1 k2 j hj1 hj2)
        · intro k j i hj hi
          cases k with
          | zero =>
              rw [List.getD_cons_zero] at hj
              exact Or.inl (hV3 j hj i hi)
          | succ k =>
              rw [List.getD_cons_succ] at hj
              rcases hres.2.2.2.2 k j i hj hi with h | ⟨k2, hk2, hmem⟩
              · rcases List.mem_append.mp h with h2 | h2
                · exact Or.inl h2
                · refine Or.inr ⟨0, Nat.succ_pos k, ?_⟩
                  rw [List.getD_cons_zero]
                  exact h2
              · refine Or.inr ⟨k2 + 1, by omega, ?_⟩
                rw [List.getD_cons_succ]
                exact hmem

/-- **C8**: on fitness vectors of a common length, `fast_nondominated_sort`
partitions the indices into fronts: every member of front 0 is dominated
by zero individuals; every member of a later front is dominated only by
individuals of strictly earlier fronts; and every index lands in exactly
one (duplicate-free) front. -/
theorem C8_fast_nondominated_sort (fv : List (List ℚ)) (m : ℕ)
    (hlen : ∀ v ∈ fv, v.length = m) :
    (∀ j ∈ (NsgaII.fast_nondominated_sort fv).getD 0 [], ∀ i,
       NsgaII.dominates (fv.getD i []) (fv.getD j []) = false) ∧
    (∀ k j i, j ∈ (NsgaII.fast_nondominated_sort fv).getD k [] →
       NsgaII.dominates (fv.getD i []) (fv.getD j []) = true →
       ∃ k2, k2 < k ∧ i ∈ (NsgaII.fast_nondominated_sort fv).getD k2 []) ∧
    (∀ j, j < fv.length →
       ∃ k, j ∈ (NsgaII.fast_nondominated_sort fv).getD k []) ∧
    (∀ k1 k2 j, j ∈ (NsgaII.fast_nondominated_sort fv).getD k1 [] →
       j ∈ (NsgaII.fast_nondominated_sort fv).getD k2 [] → k1 = k2) ∧
    (∀ k j, j ∈ (NsgaII.fast_nondominated_sort fv).getD k [] →
       j < fv.length) ∧
    (∀ k, ((NsgaII.fast_nondominated_sort fv).getD k []).Nodup) := by
  have hinv0 : NsgaII.FnsInv fv
      ((List.range fv.length).map
        (fun i => (NsgaII.domination_count fv i : ℤ)))
      ((List.range fv.length).filter
        (fun i => NsgaII.domination_count fv i == 0))
      [] (fv.length + 1) := by
    refine ⟨?_, List.nodup_nil, List.Nodup.filter _ (List.nodup_range _),
      ?_, ?_, ?_, ?_, ?_, ?_, ?_, ?_⟩
    · rw [List.length_map, List.length_range]
    · intro j hj
      exact absurd hj (List.not_mem_nil j)
    · intro j hj
      exact ((mem_front0_iff fv j).mp hj).1
    · intro j _
      exact List.not_mem_nil j
    · intro j hjn
      rw [getD_map_range _ _ _ _ hjn]
      have h0 : NsgaII.DcapL fv j [] = 0 := rfl
      rw [h0]
      push_cast
      ring
    · intro j hj i hi
      exfalso
      have h0 := ((mem_front0_iff fv j).mp hj).2
      have hmem : i ∈ (List.range fv.length).filter (NsgaII.dpredB fv j) := by
        rw [List.mem_filter]
        exact ⟨List.mem_range.mpr (dpredB_lt fv j i hi).1, hi⟩
      have hpos := List.length_pos_of_mem hmem
      unfold NsgaII.domination_count at h0
      omega
    · intro j hj
      exact absurd hj (List.not_mem_nil j)
    · intro j hjn hjP hjf
      have hne : NsgaII.domination_count fv j ≠ 0 :=
        fun h0 => hjf ((mem_front0_iff fv j).mpr ⟨hjn, h0⟩)
      have h0 : NsgaII.DcapL fv j [] = 0 := rfl
      omega
    · omega
  have hres := fns_rounds_spec fv m hlen (fv.length + 1) _ _ [] hinv0
  have hres2 : NsgaII.FnsRes fv (NsgaII.fast_nondominated_sort fv) [] := hres
  obtain ⟨hR1, hR2, hR3, hR4, hR5⟩ := hres2
  refine ⟨?_, ?_, ?_, hR4, fun k j hj => (hR2 k j hj).1, hR3⟩
  · intro j hj i
    by_contra hd
    rw [Bool.not_eq_false] at hd
    have hij : i ≠ j := by
      intro he
      rw [he, dominates_irrefl] at hd
      exact absurd hd (by simp)
    have hp : NsgaII.dpredB fv j i = true := by
      unfold NsgaII.dpredB
      rw [Bool.and_eq_true]
      exact ⟨decide_eq_true hij, hd⟩
    rcases hR5 0 j i hj hp with h | ⟨k2, hk2, _⟩
    · exact absurd h (List.not_mem_nil i)
    · omega
  · intro k j i hj hd
    have hij : i ≠ j := by
      intro he
      rw [he, dominates_irrefl] at hd
      exact absurd hd (by simp)
    have hp : NsgaII.dpredB fv j i = true := by
      unfold NsgaII.dpredB
      rw [Bool.and_eq_true]
      exact ⟨decide_eq_true hij, hd⟩
    rcases hR5 k j i hj hp with h | hex
    · exact absurd h (List.not_mem_nil i)
    · exact hex
  · intro j hjn
    rcases hR1 j hjn with h | hex
    · exact absurd h (List.not_mem_nil j)
    · exact hex

/-- Closed instantiation of the C8 front properties on three concrete
two-objective vectors. -/
theorem C8_fast_nondominated_sort_witness :
    (∀ v ∈ fvC8, v.length = 2) ∧
    ((∀ j ∈ (NsgaII.fast_nondominated_sort fvC8).getD 0 [], ∀ i,
        NsgaII.dominates (fvC8.getD i []) (fvC8.getD j []) = false) ∧
     (∀ k j i, j ∈ (NsgaII.fast_nondominated_sort fvC8).getD k [] →
        NsgaII.dominates (fvC8.getD i []) (fvC8.getD j []) = true →
        ∃ k2, k2 < k ∧ i ∈ (NsgaII.fast_nondominated_sort fvC8).getD k2 []) ∧
     (∀ j, j < fvC8.length →
        ∃ k, j ∈ (NsgaII.fast_nondominated_sort fvC8).getD k []) ∧
     (∀ k1 k2 j, j ∈ (NsgaII.fast_nondominated_sort fvC8).getD k1 [] →
        j ∈ (NsgaII.fast_nondominated_sort fvC8).getD k2 [] → k1 = k2) ∧
     (∀ k j, j ∈ (NsgaII.fast_nondominated_sort fvC8).getD k [] →
        j < fvC8.length) ∧
     (∀ k, ((NsgaII.fast_nondominated_sort fvC8).getD k []).Nodup)) :=
  ⟨fun v hv => by fin_cases hv <;> rfl,
   C8_fast_nondominated_sort fvC8 2 (fun v hv => by fin_cases hv <;> rfl)⟩

end S2P
